import Mathlib

/-!
# Secret lifecycle engine: scanner, key deriver, rewriter and reference validator

A shallow embedding of `scripts/vault-manager.js` (class `VaultManager`) and
`src/validate-references.js` (class `VaultReferenceValidator`).

JavaScript strings are modelled as lists of characters (`Str`).  A `Char` is a
Unicode scalar value: a character outside the Basic Multilingual Plane stands for
the two UTF-16 code units of its surrogate pair (see `codeUnits`), and strings
with unpaired surrogates are not represented.  Files hold bytes, read and written
through UTF-8.  File system, secret store and regular expressions are explicit
values passed to the functions that use them.
-/

/-- A JavaScript string: the sequence of its characters. -/
abbrev Str := List Char

/-- The content of a file: its bytes, each a number below 256. -/
abbrev Bytes := List Nat

namespace JS

/-! ## String primitives -/

/-- `s.startsWith(p)`. -/
def startsWith : Str → Str → Bool
  | _, [] => true
  | [], _ :: _ => false
  | c :: s, d :: p => c == d && startsWith s p

/-- `s.indexOf(needle)`: the least position at which `needle` occurs in `s`. -/
def indexOf : Str → Str → Option Nat
  | [], needle => if needle.isEmpty then some 0 else none
  | c :: s, needle =>
    if startsWith (c :: s) needle then some 0
    else (indexOf s needle).map (· + 1)

/-- `GetSubstitution` of ECMA-262 for a string pattern (no captures): expands the
`$$`, `$&`, `$\x60` and `$'` forms of a replacement template; every other `$` form
stays literal because there are no capture groups. -/
def getSubstitution (matched before after : Str) : Str → Str
  | '$' :: '$' :: t => '$' :: getSubstitution matched before after t
  | '$' :: '&' :: t => matched ++ getSubstitution matched before after t
  | '$' :: '\x60' :: t => before ++ getSubstitution matched before after t
  | '$' :: '\'' :: t => after ++ getSubstitution matched before after t
  | c :: t => c :: getSubstitution matched before after t
  | [] => []

/-- `s.replace(pattern, replacement)` with a string `pattern`: only the first
occurrence is replaced and the replacement is a template. -/
def replace (s pattern replacement : Str) : Str :=
  match indexOf s pattern with
  | none => s
  | some i =>
    let before := s.take i
    let after := s.drop (i + pattern.length)
    before ++ getSubstitution pattern before after replacement ++ after

/-- `s.toLowerCase()` on ASCII text (the only text it is applied to here). -/
def toLowerCase (s : Str) : Str := s.map Char.toLower

/-- `s.substring(a, b)` for `a ≤ b`. -/
def substring (s : Str) (a b : Nat) : Str := (s.drop a).take (b - a)

/-- `a || b` on strings where `a` may be `undefined`: `undefined` and the empty
string are falsy. -/
def orElseStr (a : Option Str) (b : Str) : Str :=
  match a with
  | some (c :: s) => c :: s
  | _ => b

/-! ## Regular expressions (backtracking matcher of ECMA-262, no `u` flag) -/

/-- Capture slots: slot `n - 1` holds the span of group `n`, `none` when the group
did not take part in the match. -/
abbrev Captures := List (Option (Nat × Nat))

/-- The match state: end index, the input from that index on, captures. -/
structure MatchState where
  pos : Nat
  rest : Str
  caps : Captures

/-- A matcher continuation. -/
abbrev Cont := MatchState → Option MatchState

/-- Regular expression syntax (the fragment used by the two scripts and by the
configured secret patterns of the examples). -/
inductive Re where
  /-- one character satisfying a test: a literal or a character class -/
  | chr (p : Char → Bool)
  /-- the empty pattern -/
  | eps
  /-- concatenation -/
  | seq (a b : Re)
  /-- alternation `a|b`, left alternative first -/
  | alt (a b : Re)
  /-- greedy quantifier `a{min,max}`; `max = none` is unbounded -/
  | rep (min : Nat) (max : Option Nat) (a : Re)
  /-- capturing group number `n` (counted from 1) -/
  | group (n : Nat) (a : Re)
  /-- the assertion `$` (without the `m` flag) -/
  | eos

namespace Re

/-- Greedy `a*`. -/
def star (a : Re) : Re := rep 0 none a
/-- Greedy `a+`. -/
def plus (a : Re) : Re := rep 1 none a
/-- Greedy `a?`. -/
def opt (a : Re) : Re := rep 0 (some 1) a
/-- A literal character. -/
def lit (c : Char) : Re := chr (fun x => x == c)
/-- A literal ASCII letter under the `i` flag (`c` is given in lower case). -/
def litI (c : Char) : Re := chr (fun x => x.toLower == c)
/-- A literal word. -/
def word : Str → Re
  | [] => eps
  | c :: w => seq (lit c) (word w)
/-- A literal ASCII word under the `i` flag (given in lower case). -/
def wordI : Str → Re
  | [] => eps
  | c :: w => seq (litI c) (wordI w)

/-- The capturing groups inside a pattern. -/
def groups : Re → List Nat
  | chr _ => []
  | eps => []
  | seq a b => groups a ++ groups b
  | alt a b => groups a ++ groups b
  | rep _ _ a => groups a
  | group n a => n :: groups a
  | eos => []

/-- Number of capture slots a pattern needs. -/
def nGroups (r : Re) : Nat := (groups r).foldl max 0

/-- Reset the given groups to `undefined` (done at the start of every iteration
of a quantifier). -/
def clearGroups (gs : List Nat) (caps : Captures) : Captures :=
  gs.foldl (fun c n => c.set (n - 1) none) caps

/-- `RepeatMatcher` of ECMA-262 for a greedy quantifier.  `m` is the matcher of the
quantified atom.  The first argument bounds the number of iterations; `min` plus
the length of the remaining input plus one is always enough, because once `min`
is used up an iteration that consumes nothing is rejected. -/
def repeatMatcher (m : Cont → Cont) (clear : Captures → Captures) (c : Cont) :
    Nat → Nat → Option Nat → Cont
  | 0, _, _ => fun _ => none
  | fuel + 1, min, max => fun x =>
    if max = some 0 then c x
    else
      let d : Cont := fun y =>
        if min = 0 ∧ y.pos = x.pos then none
        else repeatMatcher m clear c fuel (min - 1) (max.map (· - 1)) y
      let xr : MatchState := { x with caps := clear x.caps }
      if min ≠ 0 then m d xr
      else
        match m d xr with
        | some z => some z
        | none => c x

/-- The matcher of a pattern, in continuation-passing style. -/
def m : Re → Cont → Cont
  | chr p, c => fun x =>
    match x.rest with
    | [] => none
    | ch :: t => if p ch then c { x with pos := x.pos + 1, rest := t } else none
  | eps, c => c
  | seq a b, c => m a (m b c)
  | alt a b, c => fun x =>
    match m a c x with
    | some z => some z
    | none => m b c x
  | rep min max a, c => fun x =>
    repeatMatcher (m a) (clearGroups (groups a)) c (min + x.rest.length + 1) min max x
  | group n a, c => fun x =>
    m a (fun y => c { y with caps := y.caps.set (n - 1) (some (x.pos, y.pos)) }) x
  | eos, c => fun x => if x.rest.isEmpty then c x else none

end Re

/-- What `exec` returns on success: `index`, the end index (the new `lastIndex` of
a global pattern) and the capture spans. -/
structure MatchResult where
  index : Nat
  stop : Nat
  caps : Captures
deriving DecidableEq

/-- `match[n]` as a string of `content`: `match[0]` is the matched text,
`match[n]` the text of group `n`, `none` stands for `undefined`. -/
def MatchResult.get (r : MatchResult) (content : Str) : Nat → Option Str
  | 0 => some (substring content r.index r.stop)
  | n + 1 =>
    match r.caps.get? n with
    | some (some (a, b)) => some (substring content a b)
    | _ => none

/-- A compiled pattern with the `g` flag, seen through `exec`: given the subject
string and the current `lastIndex` it returns a match or `null`. -/
abbrev RegExp := Str → Nat → Option MatchResult

namespace Re

/-- Try the pattern at position `pos`, where `rest` is the input from `pos` on. -/
def tryAt (r : Re) (pos : Nat) (rest : Str) : Option MatchResult :=
  match r.m some ⟨pos, rest, List.replicate r.nGroups none⟩ with
  | some y => some ⟨pos, y.pos, y.caps⟩
  | none => none

/-- The search loop of `RegExpBuiltinExec`: try `pos`, then `pos + 1`, and so on
up to the last position of the input. -/
def search (r : Re) : Nat → Str → Option MatchResult
  | pos, [] => tryAt r pos []
  | pos, c :: t =>
    match tryAt r pos (c :: t) with
    | some z => some z
    | none => search r (pos + 1) t

/-- `exec` of the pattern compiled with the `g` flag. -/
def exec (r : Re) : RegExp := fun content lastIndex =>
  if lastIndex > content.length then none
  else search r lastIndex (content.drop lastIndex)

end Re

/-- `s.replace(re, '')` for a pattern without the `g` flag: the first match is
removed. -/
def removeFirstMatch (r : Re) (s : Str) : Str :=
  match r.exec s 0 with
  | none => s
  | some mr => s.take mr.index ++ s.drop mr.stop

end JS

open JS


/-! ## Node `path` (POSIX) -/

namespace Path

/-- `path.basename(p)`: the last segment of `p`, trailing slashes ignored. -/
def basename (p : Str) : Str :=
  ((p.reverse.dropWhile (· == '/')).takeWhile (· != '/')).reverse

/-- `path.dirname(p)`.  The scan of Node runs from the last index down to index 1:
it skips trailing slashes, then the last segment, and stops at the slash before
it (index `end`); the result is `p.slice(0, end)`. -/
def dirname : Str → Str
  | [] => ['.']
  | c0 :: t =>
    match (t.reverse.dropWhile (· == '/')).dropWhile (· != '/') with
    | [] => if c0 == '/' then ['/'] else ['.']
    | _ :: before =>
      if c0 == '/' && before.isEmpty then ['/', '/'] else c0 :: before.reverse

end Path

/-! ## File system and secret store -/

namespace Utf8

/-- The state of the UTF-8 decoder between two bytes: the code point so far, the
number of bytes still needed, and the bounds the next byte must respect. -/
structure State where
  codePoint : Nat
  needed : Nat
  lower : Nat
  upper : Nat

/-- The decoder between two characters. -/
def idle : State := ⟨0, 0, 0x80, 0xBF⟩

/-- The replacement character U+FFFD, emitted for every malformed sequence. -/
def replacement : Char := Char.ofNat 0xFFFD

/-- A byte met between two characters: the characters emitted and the new state. -/
def start (b : Nat) : List Char × State :=
  if b ≤ 0x7F then ([Char.ofNat b], idle)
  else if 0xC2 ≤ b ∧ b ≤ 0xDF then ([], ⟨b - 0xC0, 1, 0x80, 0xBF⟩)
  else if 0xE0 ≤ b ∧ b ≤ 0xEF then
    ([], ⟨b - 0xE0, 2, if b = 0xE0 then 0xA0 else 0x80, if b = 0xED then 0x9F else 0xBF⟩)
  else if 0xF0 ≤ b ∧ b ≤ 0xF4 then
    ([], ⟨b - 0xF0, 3, if b = 0xF0 then 0x90 else 0x80, if b = 0xF4 then 0x8F else 0xBF⟩)
  else ([replacement], idle)

/-- One byte through the decoder.  A byte that cannot continue the sequence under
way ends it with a replacement character and is read again as a first byte. -/
def step (s : State) (b : Nat) : List Char × State :=
  if s.needed = 0 then start b
  else if s.lower ≤ b ∧ b ≤ s.upper then
    if s.needed = 1 then ([Char.ofNat (s.codePoint * 64 + (b - 0x80))], idle)
    else ([], ⟨s.codePoint * 64 + (b - 0x80), s.needed - 1, 0x80, 0xBF⟩)
  else (replacement :: (start b).1, (start b).2)

/-- The decoder run over the bytes from a state; a sequence cut short by the end
of the input gives a replacement character. -/
def decodeFrom : State → Bytes → Str
  | s, [] => if s.needed = 0 then [] else [replacement]
  | s, b :: rest => (step s b).1 ++ decodeFrom (step s b).2 rest

/-- `buffer.toString('utf8')`: the text of the bytes, malformed sequences
replaced by U+FFFD. -/
def decode (bytes : Bytes) : Str := decodeFrom idle bytes

/-- The UTF-8 bytes of one character. -/
def encodeChar (c : Char) : Bytes :=
  let n := c.toNat
  if n < 0x80 then [n]
  else if n < 0x800 then [0xC0 + n / 64, 0x80 + n % 64]
  else if n < 0x10000 then [0xE0 + n / 4096, 0x80 + n / 64 % 64, 0x80 + n % 64]
  else [0xF0 + n / 262144, 0x80 + n / 4096 % 64, 0x80 + n / 64 % 64, 0x80 + n % 64]

/-- The bytes `writeFile` writes for a string (its default encoding is UTF-8). -/
def encode (s : Str) : Bytes := (s.map encodeChar).flatten

end Utf8

/-- The file system as the scripts see it.  `resolve p` is the file a path string
names (two strings may name one file), `bytes f` the content of file `f`
(`none`: the file cannot be read), `writable f` tells whether `writeFile` to
`f` succeeds. -/
structure FileSystem where
  resolve : Str → Str
  bytes : Str → Option Bytes
  writable : Str → Bool

namespace FileSystem

/-- `readFile(p, 'utf8')`: the decoded text; `none` when it throws. -/
def readFile (fs : FileSystem) (p : Str) : Option Str :=
  (fs.bytes (fs.resolve p)).map Utf8.decode

/-- `writeFile(p, content)`; `none` when it throws (nothing is written then). -/
def writeFile (fs : FileSystem) (p content : Str) : Option FileSystem :=
  if fs.writable (fs.resolve p) then
    some { fs with
      bytes := fun f => if f = fs.resolve p then some (Utf8.encode content) else fs.bytes f }
  else none

end FileSystem

/-- The secret store as reached through the `vault` command line: `true` when
the command line succeeds, `false` when `exec` rejects (the caller sees a throw). -/
abbrev Vault := Str → Bool

/-- `args.join(' ')`. -/
def joinArgs : List Str → Str
  | [] => []
  | [a] => a
  | a :: b :: rest => a ++ ' ' :: joinArgs (b :: rest)

/-- `executeVaultCommand(args)`: runs `vault <args joined by blanks>`. -/
def executeVaultCommand (vault : Vault) (args : List Str) : Bool :=
  vault ("vault ".toList ++ joinArgs args)

/-- `verifyVaultConnection()` (the same method in both classes): the status
command must succeed and its output must parse to a status that is not sealed.
`statusSealed` is what `JSON.parse(result.stdout)` yields: `none` when parsing
or reading `status.sealed` throws, else the truth value of `status.sealed`. -/
def verifyVaultConnection (vault : Vault) (statusSealed : Option Bool) : Bool :=
  if executeVaultCommand vault ["status".toList, "-format=json".toList] then
    match statusSealed with
    | some false => true
    | _ => false
  else false

/-! ## `VaultManager` (scripts/vault-manager.js) -/

namespace VaultManager

/-- The constructor options the engine reads. -/
structure Options where
  mountPath : Str
  basePath : Str
  projectName : Str
  backupDir : Str := ".windsurf/backups".toList

/-- One entry of `secretPatterns`: the patterns of a secret type (`none` is a
pattern text that `new RegExp` rejects with a `SyntaxError`) and the optional
`vault_path`. -/
structure PatternConfig where
  patterns : List (Option RegExp)
  vault_path : Option Str

/-- `Object.entries(this.secretPatterns)`: the types with their configuration. -/
abbrev Registry := List (Str × PatternConfig)

/-- A detected secret, as pushed by `detectSecretsInContent` (`matchText` is the
field `match` of the source). -/
structure Secret where
  type : Str
  key : Str
  value : Str
  path : Str
  vaultPath : Str
  matchText : Str
  lineNumber : Nat
deriving DecidableEq, Repr

/-- The pattern `/[_-]?key$|[_-]?secret$|[_-]?token$|[_-]?password$/i`. -/
def suffixPattern : Re :=
  let sep : Re := Re.opt (Re.chr (fun c => c == '_' || c == '-'))
  Re.alt (Re.seq sep (Re.seq (Re.wordI "key".toList) Re.eos))
    (Re.alt (Re.seq sep (Re.seq (Re.wordI "secret".toList) Re.eos))
      (Re.alt (Re.seq sep (Re.seq (Re.wordI "token".toList) Re.eos))
        (Re.seq sep (Re.seq (Re.wordI "password".toList) Re.eos))))

/-- Membership in the class `[a-zA-Z0-9_-]`. -/
def keyChar (c : Char) : Bool := c.isAlphanum || c == '_' || c == '-'

/-- The number of UTF-16 code units of a character: two outside the Basic
Multilingual Plane. -/
def codeUnits (c : Char) : Nat := if c.toNat < 0x10000 then 1 else 2

/-- `s.replace(/[^a-zA-Z0-9_-]/g, '_')`: the pattern has no `u` flag, so every
code unit outside the class is a match of its own and a character outside the
Basic Multilingual Plane gives two `_`. -/
def replaceUnsafeChars (s : Str) : Str :=
  (s.map (fun c => if keyChar c then [c] else List.replicate (codeUnits c) '_')).flatten

/-- `generateSecretKey(filePath, identifier)`. -/
def generateSecretKey (filePath identifier : Str) : Str :=
  let fileName := Path.basename filePath
  let dirName := Path.basename (Path.dirname filePath)
  let cleanIdentifier :=
    toLowerCase (replaceUnsafeChars (removeFirstMatch suffixPattern identifier))
  dirName ++ '_' :: fileName ++ '_' :: cleanIdentifier

/-- `getLineNumber(content, position)`:
`content.substring(0, position).split('\n').length`. -/
def getLineNumber (content : Str) (position : Nat) : Nat :=
  (substring content 0 position).count '\n' + 1

/-- The record pushed for one match (body of the `while` loop). -/
def mkSecret (type : Str) (config : PatternConfig) (filePath content : Str)
    (mr : MatchResult) : Secret :=
  let match0 := substring content mr.index mr.stop
  { type := type
    key := generateSecretKey filePath (orElseStr (mr.get content 1) type)
    value := orElseStr (mr.get content 2) match0
    path := filePath
    vaultPath := orElseStr config.vault_path type
    matchText := match0
    lineNumber := getLineNumber content mr.index }

/-- The loop `while ((match = pattern.exec(content)) !== null)`, started with the
given `lastIndex`.  The first argument bounds the number of `exec` calls; `none`
means the bound was reached with the loop still running. -/
def matchLoop (type : Str) (config : PatternConfig) (filePath content : Str)
    (pattern : RegExp) : Nat → Nat → Option (List Secret)
  | 0, _ => none
  | fuel + 1, lastIndex =>
    match pattern content lastIndex with
    | none => some []
    | some mr =>
      (matchLoop type config filePath content pattern fuel mr.stop).map
        (mkSecret type config filePath content mr :: ·)

/-- How a computation ends: with a value, with a thrown exception, or not within
the bound on loop iterations. -/
inductive Outcome (α : Type) where
  | ok (a : α)
  | throws
  | unfinished
deriving DecidableEq, Repr

/-- The loop over `config.patterns` for one secret type. -/
def detectWithPatterns (type : Str) (config : PatternConfig) (filePath content : Str)
    (fuel : Nat) : List (Option RegExp) → Outcome (List Secret)
  | [] => .ok []
  | none :: _ => .throws
  | some pattern :: rest =>
    match matchLoop type config filePath content pattern fuel 0 with
    | none => .unfinished
    | some found =>
      match detectWithPatterns type config filePath content fuel rest with
      | .ok more => .ok (found ++ more)
      | .throws => .throws
      | .unfinished => .unfinished

/-- `detectSecretsInContent(content, filePath)`; `fuel` bounds each `while` loop. -/
def detectSecretsInContent (secretPatterns : Registry) (content filePath : Str)
    (fuel : Nat) : Outcome (List Secret) :=
  match secretPatterns with
  | [] => .ok []
  | (type, config) :: rest =>
    match detectWithPatterns type config filePath content fuel config.patterns with
    | .ok found =>
      match detectSecretsInContent rest content filePath fuel with
      | .ok more => .ok (found ++ more)
      | .throws => .throws
      | .unfinished => .unfinished
    | .throws => .throws
    | .unfinished => .unfinished

/-- The own properties of `results.secretsByType`, in insertion order. -/
abbrev ByType := List (Str × List Secret)

/-- The report built by `scanForSecrets`. -/
structure ScanResults where
  totalFiles : Nat
  secretsFound : Nat
  secretsByType : ByType
  secretLocations : List (Str × List Secret)
deriving DecidableEq

/-- The property names every object inherits from `Object.prototype`.  Reading
one of them from `secretsByType` (created as a plain object) yields a truthy
value that is not an array unless an own property of that name exists. -/
def objectPrototypeKeys : List Str :=
  ["constructor".toList, "__defineGetter__".toList, "__defineSetter__".toList,
   "hasOwnProperty".toList, "__lookupGetter__".toList, "__lookupSetter__".toList,
   "isPrototypeOf".toList, "propertyIsEnumerable".toList, "toString".toList,
   "valueOf".toList, "__proto__".toList, "toLocaleString".toList]

/-- Own-property lookup. -/
def ownProperty (o : ByType) (k : Str) : Option (List Secret) :=
  (o.find? (fun e => e.1 = k)).map (·.2)

/-- `o[k].push(s)` for an own property `k`. -/
def pushOwn (o : ByType) (k : Str) (s : Secret) : ByType :=
  o.map (fun e => if e.1 = k then (e.1, e.2 ++ [s]) else e)

/-- The loop "Organize secrets by type" of `scanForSecrets`.  When the type is
not an own property but names an inherited one, `!results.secretsByType[type]`
is false, so no array is created, and `.push` throws a `TypeError`, which the
`catch` of `scanForSecrets` swallows: the loop ends there with the object as it
is. -/
def organizeByType : List Secret → ByType → ByType
  | [], o => o
  | s :: rest, o =>
    match ownProperty o s.type with
    | some _ => organizeByType rest (pushOwn o s.type s)
    | none =>
      if s.type ∈ objectPrototypeKeys then o
      else organizeByType rest (o ++ [(s.type, [s])])

/-- The body of `for (const file of files)` in `scanForSecrets`, with its
`try`/`catch`; `none` when a match loop did not finish. -/
def scanFile (secretPatterns : Registry) (fs : FileSystem) (fuel : Nat)
    (results : ScanResults) (file : Str) : Option ScanResults :=
  match fs.readFile file with
  | none => some results
  | some content =>
    match detectSecretsInContent secretPatterns content file fuel with
    | .unfinished => none
    | .throws => some results
    | .ok fileSecrets =>
      if fileSecrets.length > 0 then
        some { results with
          secretsFound := results.secretsFound + fileSecrets.length
          secretLocations := results.secretLocations ++ [(file, fileSecrets)]
          secretsByType := organizeByType fileSecrets results.secretsByType }
      else some results

/-- The loop over the files of `scanForSecrets`. -/
def scanFiles (secretPatterns : Registry) (fs : FileSystem) (fuel : Nat) :
    List Str → ScanResults → Option ScanResults
  | [], results => some results
  | file :: rest, results =>
    match scanFile secretPatterns fs fuel results file with
    | none => none
    | some results1 => scanFiles secretPatterns fs fuel rest results1

/-- `scanForSecrets(directory)`, where `files` is what `getFilesToScan(directory)`
returned. -/
def scanForSecrets (secretPatterns : Registry) (fs : FileSystem) (fuel : Nat)
    (files : List Str) : Option ScanResults :=
  scanFiles secretPatterns fs fuel files
    { totalFiles := files.length, secretsFound := 0, secretsByType := [],
      secretLocations := [] }

/-- The store path built for a secret:
`mountPath/basePath/projectName/secret.vaultPath`. -/
def storePath (o : Options) (secret : Secret) : Str :=
  o.mountPath ++ '/' :: o.basePath ++ '/' :: o.projectName ++ '/' :: secret.vaultPath

/-- The `kv put` of one secret in `storeSecrets`: `true` when it succeeded. -/
def putSecret (o : Options) (vault : Vault) (secret : Secret) : Bool :=
  executeVaultCommand vault
    ["kv".toList, "put".toList, storePath o secret, secret.key ++ '=' :: secret.value]

/-- `storeSecrets(scanResults)`: every secret of every location is put, a failed
put is logged and skipped.  The result lists each secret with the outcome of its
put (the method itself returns nothing and keeps no record).  The preceding
`createVaultPaths` only lists paths and logs, it changes nothing. -/
def storeSecrets (o : Options) (vault : Vault) (scanResults : ScanResults) :
    List (Secret × Bool) :=
  if scanResults.secretsFound = 0 then []
  else
    (scanResults.secretLocations.map (·.2)).flatten.map
      (fun secret => (secret, putSecret o vault secret))

/-- The template `{{vault:${vaultPath}:${secret.key}}}` of the rewriter. -/
def referenceToken (vaultPath key : Str) : Str :=
  "\x7b\x7bvault:".toList ++ vaultPath ++ ':' :: key ++ "\x7d\x7d".toList

/-- The reference written for a secret. -/
def vaultReference (o : Options) (secret : Secret) : Str :=
  referenceToken (storePath o secret) secret.key

/-- One step of the loop "Replace each secret":
`content.replace(secret.match, secret.match.replace(secret.value, vaultReference))`. -/
def replaceSecret (o : Options) (content : Str) (secret : Secret) : Str :=
  JS.replace content secret.matchText
    (JS.replace secret.matchText secret.value (vaultReference o secret))

/-- `path.join(this.backupDir, path.basename(file) + '.bak')`. -/
def backupPath (o : Options) (file : Str) : Str :=
  o.backupDir ++ '/' :: Path.basename file ++ ".bak".toList

/-- The body of `for (const location of scanResults.secretLocations)` in
`replaceSecretsWithReferences`, with its `try`/`catch`: read, back up, replace
every secret, write.  A throw of `readFile` or `writeFile` ends the body.  The
result is the file system the body leaves and whether it overwrote the file,
that is, whether `writeFile(location.file, content)` was reached and went
through. -/
def rewriteFileStep (o : Options) (fs : FileSystem) (location : Str × List Secret) :
    FileSystem × Bool :=
  match fs.readFile location.1 with
  | none => (fs, false)
  | some content =>
    match fs.writeFile (backupPath o location.1) content with
    | none => (fs, false)
    | some fs1 =>
      match fs1.writeFile location.1 (location.2.foldl (replaceSecret o) content) with
      | none => (fs1, false)
      | some fs2 => (fs2, true)

/-- The file system one pass of the loop body leaves. -/
def rewriteFile (o : Options) (fs : FileSystem) (location : Str × List Secret) :
    FileSystem :=
  (rewriteFileStep o fs location).1

/-- `replaceSecretsWithReferences(scanResults)`. -/
def replaceSecretsWithReferences (o : Options) (fs : FileSystem)
    (scanResults : ScanResults) : FileSystem :=
  if scanResults.secretsFound = 0 then fs
  else scanResults.secretLocations.foldl (rewriteFile o) fs

/-- The flags of `run`. -/
structure RunOptions where
  scan : Bool
  autoStore : Bool
  replaceSecrets : Bool

/-- What a run leaves behind: the file system, the puts with their outcomes and
the scan report it returns (`none` when no scan was requested). -/
structure RunResult where
  fs : FileSystem
  puts : List (Secret × Bool)
  report : Option ScanResults

/-- How `run` ends: with `process.exit(code)` or by returning. -/
inductive RunOutcome where
  | exited (code : Nat)
  | returned (result : RunResult)

/-- `run(options)`; `files` is what `getFilesToScan` returns for the directory
and `statusSealed` what the status command prints (see
`verifyVaultConnection`).  Without a verified connection the run exits with
code 1 before anything else.  `none` when a match loop did not finish. -/
def run (o : Options) (secretPatterns : Registry) (vault : Vault)
    (statusSealed : Option Bool) (fs : FileSystem)
    (fuel : Nat) (files : List Str) (options : RunOptions) : Option RunOutcome :=
  if !verifyVaultConnection vault statusSealed then some (.exited 1)
  else if options.scan then
    match scanForSecrets secretPatterns fs fuel files with
    | none => none
    | some scanResults =>
      if options.autoStore && decide (scanResults.secretsFound > 0) then
        let puts := storeSecrets o vault scanResults
        if options.replaceSecrets then
          some (.returned { fs := replaceSecretsWithReferences o fs scanResults,
                            puts := puts, report := some scanResults })
        else some (.returned { fs := fs, puts := puts, report := some scanResults })
      else some (.returned { fs := fs, puts := [], report := some scanResults })
  else some (.returned { fs := fs, puts := [], report := none })

end VaultManager

/-! ## `VaultReferenceValidator` (src/validate-references.js) -/

namespace VaultReferenceValidator

/-- The pattern `/\{\{vault:([^:]+):([^}]+)\}\}/g`. -/
def referencePattern : Re :=
  Re.seq (Re.word "\x7b\x7bvault:".toList)
    (Re.seq (Re.group 1 (Re.plus (Re.chr (fun c => c != ':'))))
      (Re.seq (Re.lit ':')
        (Re.seq (Re.group 2 (Re.plus (Re.chr (fun c => c != '}'))))
          (Re.word "\x7d\x7d".toList))))

/-- An entry of `results.references`. -/
structure Reference where
  path : Str
  key : Str
  valid : Bool
deriving DecidableEq, Repr

/-- The result of `validateReferencesInFile`. -/
structure FileResult where
  file : Str
  valid : Bool
  references : List Reference
deriving DecidableEq, Repr

/-- The body of the `while` loop for one match: the store lookup
`kv get <vaultPath> -field=<secretKey>` decides `valid`. -/
def checkReference (vault : Vault) (content : Str) (mr : MatchResult) : Reference :=
  let vaultPath := (mr.get content 1).getD []
  let secretKey := (mr.get content 2).getD []
  { path := vaultPath
    key := secretKey
    valid := executeVaultCommand vault
      ["kv".toList, "get".toList, vaultPath, "-field=".toList ++ secretKey] }

/-- The loop `while ((match = referencePattern.exec(content)) !== null)`, started
with the given `lastIndex`; the first argument bounds the number of `exec`
calls (`none`: bound reached). -/
def referenceLoop (vault : Vault) (content : Str) : Nat → Nat → Option (List Reference)
  | 0, _ => none
  | fuel + 1, lastIndex =>
    match referencePattern.exec content lastIndex with
    | none => some []
    | some mr =>
      (referenceLoop vault content fuel mr.stop).map (checkReference vault content mr :: ·)

/-- `validateReferencesInFile(filePath)`. -/
def validateReferencesInFile (vault : Vault) (fs : FileSystem) (fuel : Nat)
    (filePath : Str) : Option FileResult :=
  match fs.readFile filePath with
  | none => some { file := filePath, valid := false, references := [] }
  | some content =>
    match referenceLoop vault content fuel 0 with
    | none => none
    | some references =>
      some { file := filePath, valid := references.all (·.valid), references := references }

/-- The report of `validateAllReferences`. -/
structure Report where
  totalFiles : Nat
  filesWithReferences : Nat
  validReferences : Nat
  invalidReferences : Nat
  fileResults : List FileResult
deriving DecidableEq, Repr

/-- The body of `for (const file of files)` in `validateAllReferences`. -/
def validateFile (vault : Vault) (fs : FileSystem) (fuel : Nat) (results : Report)
    (file : Str) : Option Report :=
  match validateReferencesInFile vault fs fuel file with
  | none => none
  | some fileResult =>
    if fileResult.references.length > 0 then
      let validCount := (fileResult.references.filter (fun ref => ref.valid)).length
      let invalidCount := (fileResult.references.filter (fun ref => !ref.valid)).length
      some { results with
        filesWithReferences := results.filesWithReferences + 1
        fileResults := results.fileResults ++ [fileResult]
        validReferences := results.validReferences + validCount
        invalidReferences := results.invalidReferences + invalidCount }
    else some results

/-- The loop over the files of `validateAllReferences`. -/
def validateFiles (vault : Vault) (fs : FileSystem) (fuel : Nat) :
    List Str → Report → Option Report
  | [], results => some results
  | file :: rest, results =>
    match validateFile vault fs fuel results file with
    | none => none
    | some results1 => validateFiles vault fs fuel rest results1

/-- `validateAllReferences(directory)`, where `files` is what
`findFilesWithReferences(directory)` returned. -/
def validateAllReferences (vault : Vault) (fs : FileSystem) (fuel : Nat)
    (files : List Str) : Option Report :=
  validateFiles vault fs fuel files
    { totalFiles := files.length, filesWithReferences := 0, validReferences := 0,
      invalidReferences := 0, fileResults := [] }

/-- The exit code of `run(options)`: 1 without a verified connection to the store
(nothing is validated then), 1 when `results.invalidReferences > 0`, else 0.
`statusSealed` is what the status command prints (see
`verifyVaultConnection`). -/
def run (vault : Vault) (statusSealed : Option Bool) (fs : FileSystem) (fuel : Nat)
    (files : List Str) : Option Nat :=
  if !verifyVaultConnection vault statusSealed then some 1
  else
    (validateAllReferences vault fs fuel files).map
      (fun results => if results.invalidReferences > 0 then 1 else 0)

end VaultReferenceValidator

/-! ## Auxiliary and specification-level definitions -/

namespace JS.Re

/-- A continuation that fails whenever the next character satisfies `p`. -/
def Rejects (p : Char → Bool) (c : Cont) : Prop :=
  ∀ pos ch t caps, p ch = true → c ⟨pos, ch :: t, caps⟩ = none

end JS.Re

namespace VaultReferenceValidator

open JS.Re

/-- The class `[^:]`. -/
def notColon (c : Char) : Bool := c != ':'

/-- The class `[^}]`. -/
def notBrace (c : Char) : Bool := c != '}'

/-- The part of the pattern after the first group. -/
def afterPath : Re :=
  Re.seq (Re.lit ':') (Re.seq (Re.group 2 (Re.plus (Re.chr notBrace))) (Re.word "\x7d\x7d".toList))

/-- The shape of the result of a successful match at `pos`. -/
def tokenMatch (pos : Nat) (P K : Str) : MatchResult :=
  ⟨pos, pos + (8 + P.length + 1 + K.length + 2),
   [some (pos + 8, pos + 8 + P.length),
    some (pos + 8 + P.length + 1, pos + 8 + P.length + 1 + K.length)]⟩

/-- The token occurrences of a text, as the validator finds them: the store path
and key of the successive matches of the reference pattern from `lastIndex` on
(the first argument bounds the number of `exec` calls). -/
def tokenOccurrences (content : Str) : Nat → Nat → Option (List (Str × Str))
  | 0, _ => none
  | fuel + 1, lastIndex =>
    match referencePattern.exec content lastIndex with
    | none => some []
    | some mr =>
      (tokenOccurrences content fuel mr.stop).map
        (((mr.get content 1).getD [], (mr.get content 2).getD []) :: ·)

/-- The store lookup of the validator for a decoded pair. -/
def lookup (vault : Vault) (t : Str × Str) : Bool :=
  executeVaultCommand vault ["kv".toList, "get".toList, t.1, "-field=".toList ++ t.2]

/-- The reference recorded for a decoded pair. -/
def toReference (vault : Vault) (t : Str × Str) : Reference :=
  { path := t.1, key := t.2, valid := lookup vault t }

end VaultReferenceValidator

namespace VaultReferenceValidator

/-- The token occurrences over all files of a run: unreadable files have none. -/
def allTokens (fs : FileSystem) (fuel : Nat) (files : List Str) : List (Str × Str) :=
  ((files.filterMap fs.readFile).map (fun c => (tokenOccurrences c fuel 0).getD [])).flatten

end VaultReferenceValidator

namespace VaultManager

open JS.Re

/-- The separator class `[_-]`. -/
def isSep (c : Char) : Bool := c == '_' || c == '-'

/-- The words the suffix pattern removes. -/
def keywords : List Str := ["key".toList, "secret".toList, "token".toList, "password".toList]

/-- The input from some position on is one of the keywords (in any letter case),
possibly with one separator before it. -/
def matchesKeyword (kw rest : Str) : Bool :=
  (rest.map Char.toLower == kw) ||
    (match rest with
     | ch :: t => isSep ch && (t.map Char.toLower == kw)
     | [] => false)

/-- Some alternative of the suffix pattern matches the whole remaining input. -/
def keywordForm (rest : Str) : Bool := keywords.any (fun kw => matchesKeyword kw rest)

/-- The identifier with its first suffix of keyword form removed. -/
def stripRec : Str → Str
  | [] => []
  | c :: t => if keywordForm (c :: t) then [] else c :: stripRec t

end VaultManager

namespace VaultManager

/-- The text `s` ends with `kw`, letter case ignored (`kw` is in lower case). -/
def endsWithI (s kw : Str) : Bool := kw.isSuffixOf (s.map Char.toLower)

/-- Cleaning step one in words: a trailing `key`, `secret`, `token` or
`password` (case-insensitive) is stripped together with the single `_` or `-`
directly before it when there is one; otherwise the identifier is unchanged. -/
def stripKeyword (s : Str) : Str :=
  match keywords.find? (endsWithI s) with
  | none => s
  | some kw =>
    let base := s.take (s.length - kw.length)
    match base.getLast? with
    | some c => if isSep c then base.dropLast else base
    | none => base

/-- The suffixes named by the specification. -/
def claimedSuffixes : List Str :=
  ["_key".toList, "_secret".toList, "_token".toList, "_password".toList]

/-- Cleaning step one as the specification words it: a trailing `_key`,
`_secret`, `_token` or `_password` (case-insensitive) is stripped when present,
otherwise the identifier is unchanged. -/
def stripClaimedSuffix (s : Str) : Str :=
  match claimedSuffixes.find? (endsWithI s) with
  | none => s
  | some suffix => s.take (s.length - suffix.length)

/-- Cleaning step two in the words of the specification: every character
outside `[a-zA-Z0-9_-]` is replaced by `_`. -/
def replaceClaimed (s : Str) : Str :=
  s.map (fun c => if keyChar c then c else '_')

/-- The key the specification describes:
`<dir>_<file>_<cleanedIdentifier>` with the cleaning of its wording. -/
def generateSecretKeyClaimed (filePath identifier : Str) : Str :=
  Path.basename (Path.dirname filePath) ++ '_' :: Path.basename filePath ++
    '_' :: (replaceClaimed (stripClaimedSuffix identifier)).map Char.toLower

end VaultManager

namespace Sample

/-- The class `\w`. -/
def wordChar (c : Char) : Bool := c.isAlphanum || c == '_'

/-- The secret pattern `(\w+)=(\w+)`: identifier in group 1, value in group 2. -/
def assignPattern : Re :=
  Re.seq (Re.group 1 (Re.plus (Re.chr wordChar)))
    (Re.seq (Re.lit '=') (Re.group 2 (Re.plus (Re.chr wordChar))))

/-- The secret pattern `(\w+)=(\w*)`, whose value group may capture nothing. -/
def assignPatternOptional : Re :=
  Re.seq (Re.group 1 (Re.plus (Re.chr wordChar)))
    (Re.seq (Re.lit '=') (Re.group 2 (Re.star (Re.chr wordChar))))

/-- A registry with the single secret type `api_key`. -/
def registry : VaultManager.Registry :=
  [("api_key".toList, { patterns := [some assignPattern.exec], vault_path := none })]

/-- The options of the end-to-end scenario. -/
def options : VaultManager.Options :=
  { mountPath := "secret".toList, basePath := "windsurf-projects".toList,
    projectName := "myproj".toList }

/-- A file system with the given files, every path string naming a file of its
own, all targets writable. -/
def byteFileSystem (files : List (Str × Bytes)) : FileSystem :=
  { resolve := fun p => p
    bytes := fun p => (files.find? (fun e => e.1 = p)).map (·.2)
    writable := fun _ => true }

/-- A file system with the given text files, stored as UTF-8. -/
def fileSystem (files : List (Str × Str)) : FileSystem :=
  byteFileSystem (files.map (fun e => (e.1, Utf8.encode e.2)))

/-- The detection the scanner reports for the content `db_pass=pass` of
`app/settings.json`. -/
def settingsSecret : VaultManager.Secret :=
  { type := "api_key".toList, key := "app_settings.json_db_pass".toList,
    value := "pass".toList, path := "app/settings.json".toList,
    vaultPath := "api_key".toList, matchText := "db_pass=pass".toList, lineNumber := 1 }

/-- A store that is reachable and unsealed but rejects every other command, puts
and lookups included. -/
def rejectingStore : Vault := fun cmd => cmd = "vault status -format=json".toList

/-- A reachable store in which exactly the given command lines succeed. -/
def storeWith (commands : List Str) : Vault :=
  fun cmd => cmd = "vault status -format=json".toList || commands.contains cmd

/-- The detection the scanner reports for the content `db_pass=pass` of
`config/.env`. -/
def dbPassSecret : VaultManager.Secret :=
  { type := "api_key".toList, key := "config_.env_db_pass".toList, value := "pass".toList,
    path := "config/.env".toList, vaultPath := "api_key".toList,
    matchText := "db_pass=pass".toList, lineNumber := 1 }

/-- The detection the scanner reports for the first line of the content
`DB_USER=bob`, `DB_PASS=xyz` (two lines) of `config/.env`. -/
def userSecret : VaultManager.Secret :=
  { type := "api_key".toList, key := "config_.env_db_user".toList, value := "bob".toList,
    path := "config/.env".toList, vaultPath := "api_key".toList,
    matchText := "DB_USER=bob".toList, lineNumber := 1 }

/-- The detection the scanner reports for the second line of that content. -/
def passSecret : VaultManager.Secret :=
  { type := "api_key".toList, key := "config_.env_db_pass".toList, value := "xyz".toList,
    path := "config/.env".toList, vaultPath := "api_key".toList,
    matchText := "DB_PASS=xyz".toList, lineNumber := 2 }

/-- The detection the scanner reports for the content `db_pass=pass` of
`lib/keys.js`. -/
def keysSecret : VaultManager.Secret :=
  { type := "api_key".toList, key := "lib_keys.js_db_pass".toList, value := "pass".toList,
    path := "lib/keys.js".toList, vaultPath := "api_key".toList,
    matchText := "db_pass=pass".toList, lineNumber := 1 }

/-- Three files with different base names, each holding `db_pass=pass`. -/
def threeFiles : FileSystem :=
  fileSystem [("config/.env".toList, "db_pass=pass".toList),
    ("app/settings.json".toList, "db_pass=pass".toList),
    ("lib/keys.js".toList, "db_pass=pass".toList)]

/-- The report of the scan of `threeFiles`. -/
def threeFilesReport : VaultManager.ScanResults :=
  { totalFiles := 3, secretsFound := 3,
    secretsByType := [("api_key".toList, [dbPassSecret, settingsSecret, keysSecret])],
    secretLocations := [("config/.env".toList, [dbPassSecret]),
      ("app/settings.json".toList, [settingsSecret]), ("lib/keys.js".toList, [keysSecret])] }

/-- What a run that returned left behind; nothing for a run that exited or did
not finish. -/
def returned (outcome : Option VaultManager.RunOutcome) : Option VaultManager.RunResult :=
  match outcome with
  | some (.returned result) => some result
  | _ => none

end Sample

namespace VaultManager

/-- The count invariant of a report under construction. -/
def CountInvariant (clean : Prop) (r : ScanResults) : Prop :=
  r.secretsFound = (r.secretLocations.map (·.2.length)).sum ∧
    (clean → (r.secretsByType.map (·.1)).Nodup ∧
      r.secretsFound = (r.secretsByType.map (·.2.length)).sum)

end VaultManager

namespace VaultReferenceValidator

/-- The tuples `[fullMatch, vaultPath, secretKey]` that the loop of
`validateReferencesInFile` destructures from the successive matches of the
reference pattern, from `lastIndex` on (the first argument bounds the number of
`exec` calls). -/
def extractedTuples (content : Str) : Nat → Nat → Option (List (Str × Str × Str))
  | 0, _ => none
  | fuel + 1, lastIndex =>
    match referencePattern.exec content lastIndex with
    | none => some []
    | some mr =>
      (extractedTuples content fuel mr.stop).map
        (((mr.get content 0).getD [], (mr.get content 1).getD [],
          (mr.get content 2).getD []) :: ·)

end VaultReferenceValidator

namespace Sample

/-- The detection the scanner reports for the content `API_KEY=abc123` of
`config/.env`. -/
def apiKeySecret : VaultManager.Secret :=
  { type := "api_key".toList, key := "config_.env_api".toList, value := "abc123".toList,
    path := "config/.env".toList, vaultPath := "api_key".toList,
    matchText := "API_KEY=abc123".toList, lineNumber := 1 }

/-- The options of a project whose directory is named `my:proj`. -/
def colonOptions : VaultManager.Options :=
  { mountPath := "secret".toList, basePath := "windsurf-projects".toList,
    projectName := "my:proj".toList }

/-- The secret pattern `(\w*)=?(\w*)`, which can match the empty string. -/
def loosePattern : Re :=
  Re.seq (Re.group 1 (Re.star (Re.chr wordChar)))
    (Re.seq (Re.opt (Re.lit '=')) (Re.group 2 (Re.star (Re.chr wordChar))))

/-- A registry whose only pattern is `(\w*)=?(\w*)`. -/
def looseRegistry : VaultManager.Registry :=
  [("api_key".toList, { patterns := [some loosePattern.exec], vault_path := none })]

end Sample

/-! ## Lemmas -/

namespace JS.Re

theorem m_chr_nil (p : Char → Bool) (c : Cont) (pos : Nat) (caps : Captures) :
    m (chr p) c ⟨pos, [], caps⟩ = none := rfl

theorem m_chr_cons (p : Char → Bool) (c : Cont) (pos : Nat) (ch : Char) (t : Str)
    (caps : Captures) :
    m (chr p) c ⟨pos, ch :: t, caps⟩ = if p ch then c ⟨pos + 1, t, caps⟩ else none := rfl

/-- A literal word matches exactly when it is a prefix of the remaining input. -/
theorem m_word (w : Str) (c : Cont) (pos : Nat) (rest : Str) (caps : Captures) :
    m (word w) c ⟨pos, rest, caps⟩ =
      if w.isPrefixOf rest then c ⟨pos + w.length, rest.drop w.length, caps⟩ else none := by
  induction w generalizing pos rest with
  | nil => simp [word, m]
  | cons a w ih =>
    cases rest with
    | nil => simp [word, m, lit]
    | cons ch t =>
      simp only [word, m, lit, List.isPrefixOf, List.length_cons, List.drop_succ_cons]
      by_cases h : ch = a
      · subst h
        simp [ih, Nat.add_assoc, Nat.add_comm 1]
      · have h2 : (a == ch) = false := by simpa using fun e => h e.symm
        simp [h, h2]

theorem repeatMatcher_star_succ (mm : Cont → Cont) (cl : Captures → Captures) (c : Cont)
    (fuel : Nat) (x : MatchState) :
    repeatMatcher mm cl c (fuel + 1) 0 none x =
      match mm (fun y => if y.pos = x.pos then none else repeatMatcher mm cl c fuel 0 none y)
          { x with caps := cl x.caps } with
      | some z => some z
      | none => c x := by
  simp [repeatMatcher]

theorem repeatMatcher_plus_succ (mm : Cont → Cont) (cl : Captures → Captures) (c : Cont)
    (fuel : Nat) (x : MatchState) :
    repeatMatcher mm cl c (fuel + 1) 1 none x =
      mm (fun y => repeatMatcher mm cl c fuel 0 none y) { x with caps := cl x.caps } := by
  simp [repeatMatcher]

theorem clearGroups_nil (caps : Captures) : clearGroups [] caps = caps := rfl

/-- Greedy `[p]*` before a continuation that rejects `p`: the whole run of `p`
characters is consumed. -/
theorem repeat_chr_star (p : Char → Bool) (c : Cont) (hc : Rejects p c) (rest : Str) :
    ∀ (fuel pos : Nat) (caps : Captures), rest.length < fuel →
      repeatMatcher (m (chr p)) (clearGroups []) c fuel 0 none ⟨pos, rest, caps⟩ =
        c ⟨pos + (rest.takeWhile p).length, rest.dropWhile p, caps⟩ := by
  induction rest with
  | nil =>
    intro fuel pos caps hf
    cases fuel with
    | zero => omega
    | succ f =>
      rw [repeatMatcher_star_succ]
      simp [clearGroups_nil, m_chr_nil]
  | cons ch t ih =>
    intro fuel pos caps hf
    cases fuel with
    | zero => omega
    | succ f =>
      have hf2 : t.length < f := by simpa using hf
      rw [repeatMatcher_star_succ]
      simp only [clearGroups_nil, m_chr_cons]
      by_cases hp : p ch = true
      · have h1 := ih f (pos + 1) caps hf2
        simp only [hp, if_true, List.takeWhile_cons, List.dropWhile_cons, List.length_cons,
          Nat.succ_ne_self, if_false, h1]
        have e : pos + 1 + (List.takeWhile p t).length = pos + ((List.takeWhile p t).length + 1) := by
          omega
        rw [e]
        cases hz : c ⟨pos + ((List.takeWhile p t).length + 1), List.dropWhile p t, caps⟩ with
        | none => simp [hc pos ch t caps hp]
        | some z => simp
      · simp [hp]

/-- Greedy `[p]+` before a continuation that rejects `p`. -/
theorem m_plus_chr (p : Char → Bool) (c : Cont) (hc : Rejects p c) (pos : Nat) (rest : Str)
    (caps : Captures) :
    m (plus (chr p)) c ⟨pos, rest, caps⟩ =
      if rest.takeWhile p = [] then none
      else c ⟨pos + (rest.takeWhile p).length, rest.dropWhile p, caps⟩ := by
  have e : m (plus (chr p)) c ⟨pos, rest, caps⟩ =
      repeatMatcher (m (chr p)) (clearGroups []) c (1 + rest.length + 1) 1 none
        ⟨pos, rest, caps⟩ := rfl
  rw [e, repeatMatcher_plus_succ]
  cases rest with
  | nil => simp [clearGroups_nil, m_chr_nil]
  | cons ch t =>
    simp only [clearGroups_nil, m_chr_cons]
    by_cases hp : p ch = true
    · have h1 := repeat_chr_star p c hc t (1 + (ch :: t).length) (pos + 1) caps (by simp; omega)
      have e2 : pos + 1 + (List.takeWhile p t).length = pos + ((List.takeWhile p t).length + 1) := by
        omega
      rw [e2] at h1
      simp only [hp, if_true, h1, List.takeWhile_cons, List.dropWhile_cons]
      simp
    · simp [hp]

/-- The search loop returns a match found at some position of the input. -/
theorem search_some (r : Re) (rest : Str) :
    ∀ (pos : Nat) (mr : MatchResult), search r pos rest = some mr →
      ∃ j, j ≤ rest.length ∧ tryAt r (pos + j) (rest.drop j) = some mr := by
  induction rest with
  | nil =>
    intro pos mr h
    exact ⟨0, by simp, by simpa [search] using h⟩
  | cons ch t ih =>
    intro pos mr h
    simp only [search] at h
    cases ht : tryAt r pos (ch :: t) with
    | some z =>
      rw [ht] at h
      exact ⟨0, by simp, by simpa [ht] using h⟩
    | none =>
      rw [ht] at h
      obtain ⟨j, hj, hm⟩ := ih (pos + 1) mr h
      exact ⟨j + 1, by simpa using hj, by simpa [Nat.add_assoc, Nat.add_comm 1] using hm⟩

/-- A match returned by `exec` was found at a position from `lastIndex` on. -/
theorem exec_some (r : Re) (content : Str) (lastIndex : Nat) (mr : MatchResult)
    (h : r.exec content lastIndex = some mr) :
    ∃ pos, lastIndex ≤ pos ∧ pos ≤ content.length ∧
      tryAt r pos (content.drop pos) = some mr := by
  unfold exec at h
  split at h
  · cases h
  · rename_i hle
    obtain ⟨j, hj, hm⟩ := search_some r _ lastIndex mr h
    refine ⟨lastIndex + j, by omega, ?_, by simpa [List.drop_drop, Nat.add_comm] using hm⟩
    simp at hj
    omega

end JS.Re

namespace VaultReferenceValidator

open JS.Re

theorem referencePattern_eq :
    referencePattern =
      Re.seq (Re.word "\x7b\x7bvault:".toList)
        (Re.seq (Re.group 1 (Re.plus (Re.chr notColon))) afterPath) := rfl

theorem rejects_afterPath (g : MatchState → Captures) :
    Rejects notColon (fun y => m afterPath some ⟨y.pos, y.rest, g y⟩) := by
  intro pos ch t caps hp
  have h2 : (ch == ':') = false := by simpa [notColon] using hp
  simp [afterPath, m, lit, h2]

theorem rejects_closing (g : MatchState → Captures) :
    Rejects notBrace (fun y => m (Re.word "\x7d\x7d".toList) some ⟨y.pos, y.rest, g y⟩) := by
  intro pos ch t caps hp
  have h2 : (ch == '}') = false := by simpa [notBrace] using hp
  simp [word, m, lit, h2]

/-- The matcher of the part after the first group, run on a state. -/
theorem m_afterPath (pos : Nat) (rest : Str) (caps : Captures) :
    m afterPath some ⟨pos, rest, caps⟩ =
      match rest with
      | [] => none
      | ch :: r2 =>
        if ch == ':' then
          if r2.takeWhile notBrace = [] then none
          else if "\x7d\x7d".toList.isPrefixOf (r2.dropWhile notBrace) then
            some ⟨pos + 1 + (r2.takeWhile notBrace).length + 2, (r2.dropWhile notBrace).drop 2,
              caps.set 1 (some (pos + 1, pos + 1 + (r2.takeWhile notBrace).length))⟩
          else none
        else none := by
  cases rest with
  | nil => rfl
  | cons ch r2 =>
    have e1 : m afterPath some ⟨pos, ch :: r2, caps⟩ =
        if (ch == ':') = true then
          m (Re.plus (Re.chr notBrace))
            (fun y => m (Re.word "\x7d\x7d".toList) some
              { y with caps := y.caps.set (2 - 1) (some (pos + 1, y.pos)) })
            ⟨pos + 1, r2, caps⟩
        else none := rfl
    rw [e1, m_plus_chr notBrace _
      (rejects_closing (fun y => y.caps.set (2 - 1) (some (pos + 1, y.pos))))]
    simp only [m_word]
    by_cases h : (ch == ':') = true
    · simp [h, Nat.add_assoc]
    · simp [h]

/-- The matcher of the whole pattern, run at a position. -/
theorem m_referencePattern (pos : Nat) (rest : Str) :
    m referencePattern some ⟨pos, rest, [none, none]⟩ =
      if "\x7b\x7bvault:".toList.isPrefixOf rest then
        if (rest.drop 8).takeWhile notColon = [] then none
        else
          m afterPath some
            ⟨pos + 8 + ((rest.drop 8).takeWhile notColon).length,
             (rest.drop 8).dropWhile notColon,
             [some (pos + 8, pos + 8 + ((rest.drop 8).takeWhile notColon).length), none]⟩
      else none := by
  have e1 : m referencePattern some ⟨pos, rest, [none, none]⟩ =
      m (Re.word "\x7b\x7bvault:".toList)
        (fun x => m (Re.plus (Re.chr notColon))
          (fun y => m afterPath some { y with caps := y.caps.set (1 - 1) (some (x.pos, y.pos)) }) x)
        ⟨pos, rest, [none, none]⟩ := rfl
  rw [e1, m_word]
  by_cases h : "\x7b\x7bvault:".toList.isPrefixOf rest = true
  · rw [if_pos h, if_pos h]
    rw [m_plus_chr notColon _
      (rejects_afterPath (fun y => y.caps.set (1 - 1)
        (some (pos + "\x7b\x7bvault:".toList.length, y.pos))))]
    simp
  · rw [if_neg h, if_neg h]

/-- A well-formed token text matches at its start, whatever follows it. -/
theorem tryAt_token (pos : Nat) (P K tail : Str) (hP : P ≠ []) (hPc : ∀ c ∈ P, c ≠ ':')
    (hK : K ≠ []) (hKc : ∀ c ∈ K, c ≠ '}') :
    tryAt referencePattern pos
        ("\x7b\x7bvault:".toList ++ P ++ ':' :: K ++ '}' :: '}' :: tail) =
      some (tokenMatch pos P K) := by
  have hn : List.replicate referencePattern.nGroups (none : Option (Nat × Nat)) = [none, none] :=
    rfl
  have hP2 : ∀ c ∈ P, notColon c = true := by
    intro c hc
    simpa [notColon] using hPc c hc
  have hK2 : ∀ c ∈ K, notBrace c = true := by
    intro c hc
    simpa [notBrace] using hKc c hc
  have e1 : List.drop 8 ("\x7b\x7bvault:".toList ++ P ++ ':' :: K ++ '}' :: '}' :: tail) =
      P ++ (':' :: K ++ '}' :: '}' :: tail) := by
    simp
  have e2 : List.takeWhile notColon (P ++ (':' :: K ++ '}' :: '}' :: tail)) = P := by
    rw [List.takeWhile_append_of_pos hP2]
    simp [notColon]
  have e3 : List.dropWhile notColon (P ++ (':' :: K ++ '}' :: '}' :: tail)) =
      ':' :: K ++ '}' :: '}' :: tail := by
    rw [List.dropWhile_append_of_pos hP2]
    simp [notColon]
  have e4 : List.takeWhile notBrace (K ++ '}' :: '}' :: tail) = K := by
    rw [List.takeWhile_append_of_pos hK2]
    simp [notBrace]
  have e5 : List.dropWhile notBrace (K ++ '}' :: '}' :: tail) = '}' :: '}' :: tail := by
    rw [List.dropWhile_append_of_pos hK2]
    simp [notBrace]
  have e0 : "\x7b\x7bvault:".toList.isPrefixOf
      ("\x7b\x7bvault:".toList ++ P ++ ':' :: K ++ '}' :: '}' :: tail) = true := by
    simp
  unfold tryAt
  rw [hn, m_referencePattern, if_pos e0, e1, e2, e3, if_neg hP, m_afterPath]
  simp only [List.cons_append, e4, e5, if_neg hK]
  simp [tokenMatch, Nat.add_assoc]

/-- A match at `pos` is a well-formed token text at the start of the input. -/
theorem tryAt_some (pos : Nat) (rest : Str) (mr : MatchResult)
    (h : tryAt referencePattern pos rest = some mr) :
    ∃ P K tail, rest = "\x7b\x7bvault:".toList ++ P ++ ':' :: K ++ '}' :: '}' :: tail ∧
      P ≠ [] ∧ (∀ c ∈ P, c ≠ ':') ∧ K ≠ [] ∧ (∀ c ∈ K, c ≠ '}') ∧
      mr = tokenMatch pos P K := by
  have hn : List.replicate referencePattern.nGroups (none : Option (Nat × Nat)) = [none, none] :=
    rfl
  unfold tryAt at h
  rw [hn, m_referencePattern] at h
  by_cases h0 : "\x7b\x7bvault:".toList.isPrefixOf rest = true
  · rw [if_pos h0] at h
    by_cases h1 : List.takeWhile notColon (List.drop 8 rest) = []
    · rw [if_pos h1] at h
      cases h
    · rw [if_neg h1, m_afterPath] at h
      cases h2 : List.dropWhile notColon (List.drop 8 rest) with
      | nil =>
        rw [h2] at h
        cases h
      | cons ch r2 =>
        rw [h2] at h
        simp only at h
        by_cases h3 : (ch == ':') = true
        · rw [if_pos h3] at h
          by_cases h4 : List.takeWhile notBrace r2 = []
          · rw [if_pos h4] at h
            cases h
          · rw [if_neg h4] at h
            by_cases h5 : "\x7d\x7d".toList.isPrefixOf (List.dropWhile notBrace r2) = true
            · rw [if_pos h5] at h
              have p0 : "\x7b\x7bvault:".toList <+: rest := List.isPrefixOf_iff_prefix.mp h0
              have p5 : "\x7d\x7d".toList <+: List.dropWhile notBrace r2 :=
                List.isPrefixOf_iff_prefix.mp h5
              obtain ⟨t0, ht0⟩ := p0
              obtain ⟨tail, ht5⟩ := p5
              have d8 : List.drop 8 rest = t0 := by
                rw [← ht0]
                rfl
              have hch : ch = ':' := by simpa using h3
              refine ⟨List.takeWhile notColon (List.drop 8 rest), List.takeWhile notBrace r2,
                tail, ?_, h1, ?_, h4, ?_, ?_⟩
              · have a1 := List.takeWhile_append_dropWhile notColon (List.drop 8 rest)
                have a2 := List.takeWhile_append_dropWhile notBrace r2
                rw [h2, hch] at a1
                rw [← ht5] at a2
                rw [← ht0, ← d8]
                conv_lhs => rw [← a1, ← a2]
                simp
              · intro c hc
                have := List.mem_takeWhile_imp hc
                simpa [notColon] using this
              · intro c hc
                have := List.mem_takeWhile_imp hc
                simpa [notBrace] using this
              · have h6 := Option.some.inj h
                rw [← h6]
                simp [tokenMatch, Nat.add_assoc]
            · rw [if_neg h5] at h
              cases h
        · rw [if_neg h3] at h
          cases h
  · rw [if_neg h0] at h
    cases h

theorem tokenOccurrences_none (content : Str) (f i : Nat)
    (h : referencePattern.exec content i = none) :
    tokenOccurrences content (f + 1) i = some [] := by
  simp only [tokenOccurrences, h]

theorem tokenOccurrences_some (content : Str) (f i : Nat) (mr : MatchResult)
    (h : referencePattern.exec content i = some mr) :
    tokenOccurrences content (f + 1) i =
      (tokenOccurrences content f mr.stop).map
        (((mr.get content 1).getD [], (mr.get content 2).getD []) :: ·) := by
  simp only [tokenOccurrences, h]

theorem referenceLoop_eq (vault : Vault) (content : Str) :
    ∀ fuel lastIndex, referenceLoop vault content fuel lastIndex =
      (tokenOccurrences content fuel lastIndex).map (List.map (toReference vault)) := by
  intro fuel
  induction fuel with
  | zero => intro i; rfl
  | succ f ih =>
    intro i
    simp only [referenceLoop, tokenOccurrences]
    cases h : referencePattern.exec content i with
    | none => rfl
    | some mr =>
      simp only [ih]
      cases tokenOccurrences content f mr.stop with
      | none => rfl
      | some l => rfl

/-- What `exec` of the reference pattern returns. -/
theorem exec_referencePattern_some (content : Str) (i : Nat) (mr : MatchResult)
    (h : referencePattern.exec content i = some mr) :
    ∃ pos P K tail, i ≤ pos ∧
      content.drop pos = "\x7b\x7bvault:".toList ++ P ++ ':' :: K ++ '}' :: '}' :: tail ∧
      P ≠ [] ∧ (∀ c ∈ P, c ≠ ':') ∧ K ≠ [] ∧ (∀ c ∈ K, c ≠ '}') ∧
      mr = tokenMatch pos P K := by
  obtain ⟨pos, hle, _, ht⟩ := JS.Re.exec_some referencePattern content i mr h
  obtain ⟨P, K, tail, hr, hP, hPc, hK, hKc, hm⟩ := tryAt_some pos _ mr ht
  exact ⟨pos, P, K, tail, hle, hr, hP, hPc, hK, hKc, hm⟩

theorem tokenMatch_get (content : Str) (pos : Nat) (P K tail : Str)
    (hr : content.drop pos = "\x7b\x7bvault:".toList ++ P ++ ':' :: K ++ '}' :: '}' :: tail) :
    (tokenMatch pos P K).get content 1 = some P ∧ (tokenMatch pos P K).get content 2 = some K ∧
      (tokenMatch pos P K).get content 0 =
        some ("\x7b\x7bvault:".toList ++ P ++ ':' :: K ++ "\x7d\x7d".toList) := by
  have e1 : content.drop (pos + 8) = P ++ ':' :: K ++ '}' :: '}' :: tail := by
    rw [← List.drop_drop, hr]
    simp
  have e2 : content.drop (pos + 8 + P.length + 1) = K ++ '}' :: '}' :: tail := by
    rw [Nat.add_assoc (pos + 8), ← List.drop_drop, e1]
    simp
  refine ⟨?_, ?_, ?_⟩
  · simp [tokenMatch, MatchResult.get, substring, e1]
  · simp [tokenMatch, MatchResult.get, substring, e2]
  · simp only [tokenMatch, MatchResult.get, substring, hr]
    have e3 : pos + (8 + P.length + 1 + K.length + 2) - pos =
        ("\x7b\x7bvault:".toList ++ P ++ ':' :: K ++ "\x7d\x7d".toList).length := by
      simp
      omega
    rw [e3]
    have e4 : "\x7b\x7bvault:".toList ++ P ++ ':' :: K ++ '}' :: '}' :: tail =
        ("\x7b\x7bvault:".toList ++ P ++ ':' :: K ++ "\x7d\x7d".toList) ++ tail := by
      simp
    rw [e4, List.take_left]

theorem tokenMatch_stop (content : Str) (pos : Nat) (P K tail : Str)
    (hr : content.drop pos = "\x7b\x7bvault:".toList ++ P ++ ':' :: K ++ '}' :: '}' :: tail) :
    (tokenMatch pos P K).stop ≤ content.length ∧ pos < (tokenMatch pos P K).stop := by
  have hl := congrArg List.length hr
  simp at hl
  simp only [tokenMatch]
  omega

/-- With more `exec` calls allowed than the text has characters left, the loop of
the validator finishes. -/
theorem tokenOccurrences_total (content : Str) :
    ∀ fuel lastIndex, 0 < fuel → content.length < fuel + lastIndex →
      ∃ l, tokenOccurrences content fuel lastIndex = some l := by
  intro fuel
  induction fuel with
  | zero =>
    intro i h0
    omega
  | succ f ih =>
    intro i _ hi
    cases h : referencePattern.exec content i with
    | none => exact ⟨[], tokenOccurrences_none content f i h⟩
    | some mr =>
      rw [tokenOccurrences_some content f i mr h]
      obtain ⟨pos, P, K, tail, hle, hr, _, _, _, _, hm⟩ := exec_referencePattern_some content i mr h
      have hs := tokenMatch_stop content pos P K tail hr
      rw [← hm] at hs
      obtain ⟨l, hl⟩ := ih mr.stop (by omega) (by omega)
      exact ⟨_, by rw [hl]; rfl⟩

/-- Every decoded pair is well formed: a non-empty store path free of `:` and a
non-empty key free of `}`. -/
theorem tokenOccurrences_wellFormed (content : Str) :
    ∀ fuel lastIndex l, tokenOccurrences content fuel lastIndex = some l →
      ∀ t ∈ l, t.1 ≠ [] ∧ (∀ c ∈ t.1, c ≠ ':') ∧ t.2 ≠ [] ∧ (∀ c ∈ t.2, c ≠ '}') := by
  intro fuel
  induction fuel with
  | zero =>
    intro i l h
    cases h
  | succ f ih =>
    intro i l h
    cases he : referencePattern.exec content i with
    | none =>
      rw [tokenOccurrences_none content f i he] at h
      cases h
      intro t ht
      cases ht
    | some mr =>
      rw [tokenOccurrences_some content f i mr he] at h
      obtain ⟨pos, P, K, tail, hle, hr, hP, hPc, hK, hKc, hm⟩ := exec_referencePattern_some content i mr he
      obtain ⟨g1, g2, _⟩ := tokenMatch_get content pos P K tail hr
      cases hrec : tokenOccurrences content f mr.stop with
      | none =>
        rw [hrec] at h
        cases h
      | some l2 =>
        rw [hrec] at h
        simp only [Option.map_some', Option.some.injEq] at h
        subst h
        intro t ht
        rcases List.mem_cons.mp ht with h1 | h1
        · subst h1
          subst hm
          simp only [g1, g2, Option.getD_some]
          exact ⟨hP, hPc, hK, hKc⟩
        · exact ih mr.stop l2 hrec t h1

end VaultReferenceValidator

namespace VaultReferenceValidator

theorem validateFile_counts (vault : Vault) (fs : FileSystem) (fuel : Nat) (acc : Report)
    (file : Str) (hf : ∀ c, fs.readFile file = some c → c.length < fuel) :
    ∃ rep, validateFile vault fs fuel acc file = some rep ∧
      rep.validReferences = acc.validReferences + (allTokens fs fuel [file]).countP (lookup vault) ∧
      rep.invalidReferences =
        acc.invalidReferences + (allTokens fs fuel [file]).countP (fun t => !lookup vault t) := by
  cases hr : fs.readFile file with
  | none =>
    refine ⟨acc, ?_, ?_, ?_⟩
    · simp [validateFile, validateReferencesInFile, hr]
    · simp [allTokens, hr]
    · simp [allTokens, hr]
  | some c =>
    obtain ⟨l, hl⟩ := tokenOccurrences_total c fuel 0 (by have := hf c hr; omega)
      (by have := hf c hr; omega)
    have hloop : referenceLoop vault c fuel 0 = some (l.map (toReference vault)) := by
      rw [referenceLoop_eq, hl]
      rfl
    have hall : allTokens fs fuel [file] = l := by
      simp [allTokens, hr, hl]
    have hv : ((l.map (toReference vault)).filter (fun ref => ref.valid)).length =
        l.countP (lookup vault) := by
      rw [← List.countP_eq_length_filter, List.countP_map]
      rfl
    have hi : ((l.map (toReference vault)).filter (fun ref => !ref.valid)).length =
        l.countP (fun t => !lookup vault t) := by
      rw [← List.countP_eq_length_filter, List.countP_map]
      rfl
    by_cases hlen : (l.map (toReference vault)).length > 0
    · simp only [validateFile, validateReferencesInFile, hr, hloop]
      rw [if_pos hlen]
      refine ⟨_, rfl, ?_, ?_⟩
      · simp only [hv, hall]
      · simp only [hi, hall]
    · have hnil : l = [] := by
        cases l with
        | nil => rfl
        | cons a t => simp at hlen
      refine ⟨acc, ?_, ?_, ?_⟩
      · simp only [validateFile, validateReferencesInFile, hr, hloop]
        rw [if_neg hlen]
      · simp [hall, hnil]
      · simp [hall, hnil]

theorem allTokens_cons (fs : FileSystem) (fuel : Nat) (file : Str) (files : List Str) :
    allTokens fs fuel (file :: files) = allTokens fs fuel [file] ++ allTokens fs fuel files := by
  cases h : fs.readFile file with
  | none => simp [allTokens, h]
  | some c => simp [allTokens, h]

theorem validateFiles_counts (vault : Vault) (fs : FileSystem) (fuel : Nat) (files : List Str) :
    ∀ acc : Report, (∀ f ∈ files, ∀ c, fs.readFile f = some c → c.length < fuel) →
      ∃ rep, validateFiles vault fs fuel files acc = some rep ∧
        rep.validReferences = acc.validReferences + (allTokens fs fuel files).countP (lookup vault) ∧
        rep.invalidReferences =
          acc.invalidReferences + (allTokens fs fuel files).countP (fun t => !lookup vault t) := by
  induction files with
  | nil =>
    intro acc _
    exact ⟨acc, rfl, by simp [allTokens], by simp [allTokens]⟩
  | cons file rest ih =>
    intro acc hf
    obtain ⟨r1, h1, v1, i1⟩ := validateFile_counts vault fs fuel acc file
      (hf file (List.mem_cons_self _ _))
    obtain ⟨r2, h2, v2, i2⟩ := ih r1 (fun f hm => hf f (List.mem_cons_of_mem _ hm))
    refine ⟨r2, ?_, ?_, ?_⟩
    · simp only [validateFiles, h1, h2]
    · rw [v2, v1, allTokens_cons fs fuel file rest, List.countP_append]
      omega
    · rw [i2, i1, allTokens_cons fs fuel file rest, List.countP_append]
      omega

theorem search_of_tryAt (r : Re) (pos : Nat) (rest : Str) (z : MatchResult)
    (h : JS.Re.tryAt r pos rest = some z) : JS.Re.search r pos rest = some z := by
  cases rest with
  | nil => simpa [JS.Re.search] using h
  | cons c t => simp [JS.Re.search, h]

theorem exec_token (P K : Str) (hP : P ≠ []) (hPc : ∀ c ∈ P, c ≠ ':')
    (hK : K ≠ []) (hKc : ∀ c ∈ K, c ≠ '}') :
    referencePattern.exec (VaultManager.referenceToken P K) 0 = some (tokenMatch 0 P K) := by
  have h := tryAt_token 0 P K [] hP hPc hK hKc
  have e : VaultManager.referenceToken P K =
      "\x7b\x7bvault:".toList ++ P ++ ':' :: K ++ '}' :: '}' :: [] := by
    simp [VaultManager.referenceToken]
  rw [← e] at h
  simp only [JS.Re.exec]
  rw [if_neg (by omega)]
  exact search_of_tryAt _ _ _ _ h

theorem exec_at_end (content : Str) :
    referencePattern.exec content content.length = none := by
  cases h : referencePattern.exec content content.length with
  | none => rfl
  | some mr =>
    obtain ⟨pos, P, K, tail, hle, hr, _, _, _, _, _⟩ := exec_referencePattern_some content _ mr h
    have := congrArg List.length hr
    simp at this
    omega

theorem tokenOccurrences_token (P K : Str) (fuel : Nat) (hP : P ≠ []) (hPc : ∀ c ∈ P, c ≠ ':')
    (hK : K ≠ []) (hKc : ∀ c ∈ K, c ≠ '}') (hfuel : 2 ≤ fuel) :
    tokenOccurrences (VaultManager.referenceToken P K) fuel 0 = some [(P, K)] := by
  obtain ⟨f, rfl⟩ : ∃ f, fuel = f + 1 + 1 := ⟨fuel - 2, by omega⟩
  have e : VaultManager.referenceToken P K =
      "\x7b\x7bvault:".toList ++ P ++ ':' :: K ++ '}' :: '}' :: [] := by
    simp [VaultManager.referenceToken]
  have hdrop : List.drop 0 (VaultManager.referenceToken P K) =
      "\x7b\x7bvault:".toList ++ P ++ ':' :: K ++ '}' :: '}' :: [] := by
    rw [List.drop_zero, e]
  obtain ⟨g1, g2, _⟩ := tokenMatch_get _ 0 P K [] hdrop
  have hstop : (tokenMatch 0 P K).stop = (VaultManager.referenceToken P K).length := by
    simp [tokenMatch, VaultManager.referenceToken]
    omega
  rw [tokenOccurrences_some _ _ _ _ (exec_token P K hP hPc hK hKc), hstop,
    tokenOccurrences_none _ _ _ (exec_at_end _), g1, g2]
  rfl

/-- The search loop passes over a stretch in which no attempt matches. -/
theorem search_skip (r : Re) : ∀ (pre : Str) (pos : Nat) (rest : Str),
    (∀ i, i < pre.length → JS.Re.tryAt r (pos + i) ((pre ++ rest).drop i) = none) →
    JS.Re.search r pos (pre ++ rest) = JS.Re.search r (pos + pre.length) rest := by
  intro pre
  induction pre with
  | nil =>
    intro pos rest _
    rfl
  | cons c t ih =>
    intro pos rest h
    have h0 := h 0 (by simp)
    simp only [Nat.add_zero, List.drop_zero] at h0
    rw [List.cons_append] at h0 ⊢
    simp only [JS.Re.search, h0]
    rw [ih (pos + 1) rest]
    · simp only [List.length_cons]
      rw [Nat.add_assoc, Nat.add_comm 1]
    · intro i hi
      have h1 := h (i + 1) (by simp only [List.length_cons]; omega)
      rw [List.cons_append, List.drop_succ_cons] at h1
      rw [Nat.add_assoc, Nat.add_comm 1]
      exact h1

/-- The opening `{{vault:` of a token cannot begin in the text before another
opening and run into it. -/
theorem opening_no_straddle (p X : Str) (hp : p ≠ [])
    (h : "\x7b\x7bvault:".toList <+: p ++ ("\x7b\x7bvault:".toList ++ X)) :
    "\x7b\x7bvault:".toList <+: p := by
  have e : "\x7b\x7bvault:".toList = ['\x7b', '\x7b', 'v', 'a', 'u', 'l', 't', ':'] := rfl
  rw [e] at h ⊢
  rcases p with _ | ⟨c1, _ | ⟨c2, _ | ⟨c3, _ | ⟨c4, _ | ⟨c5, _ | ⟨c6, _ | ⟨c7, _ | ⟨c8, p⟩⟩⟩⟩⟩⟩⟩⟩
  · exact absurd rfl hp
  all_goals
    simp only [List.cons_append, List.nil_append, List.cons_prefix_cons] at h ⊢
  all_goals
    first
    | exact ⟨h.1, h.2.1, h.2.2.1, h.2.2.2.1, h.2.2.2.2.1, h.2.2.2.2.2.1, h.2.2.2.2.2.2.1,
        h.2.2.2.2.2.2.2.1, List.nil_prefix⟩
    | exact absurd h (by decide)
    | simp at h

/-- No attempt matches before a token when the text before it holds no opening. -/
theorem tryAt_before_token (pre X : Str) (pos i : Nat) (hi : i < pre.length)
    (hpre : ¬ "\x7b\x7bvault:".toList <:+: pre) :
    JS.Re.tryAt referencePattern pos ((pre ++ ("\x7b\x7bvault:".toList ++ X)).drop i) = none := by
  cases h : JS.Re.tryAt referencePattern pos
      ((pre ++ ("\x7b\x7bvault:".toList ++ X)).drop i) with
  | none => rfl
  | some mr =>
    exfalso
    obtain ⟨P, K, tail, hr, _⟩ := tryAt_some pos _ mr h
    rw [List.drop_append_of_le_length (by omega)] at hr
    have hne : pre.drop i ≠ [] := by
      intro e
      have := congrArg List.length e
      simp at this
      omega
    have hpfx : "\x7b\x7bvault:".toList <+: pre.drop i ++ ("\x7b\x7bvault:".toList ++ X) := by
      rw [hr]
      exact ⟨P ++ ':' :: K ++ '}' :: '}' :: tail, by simp⟩
    have h2 := opening_no_straddle (pre.drop i) X hne hpfx
    exact hpre (h2.isInfix.trans (List.drop_suffix i pre).isInfix)

/-- The first match in a text is the token when no opening comes before it. -/
theorem exec_containing (pre P K post : Str) (hP : P ≠ []) (hPc : ∀ c ∈ P, c ≠ ':')
    (hK : K ≠ []) (hKc : ∀ c ∈ K, c ≠ '}') (hpre : ¬ "\x7b\x7bvault:".toList <:+: pre) :
    referencePattern.exec
        (pre ++ ("\x7b\x7bvault:".toList ++ P ++ ':' :: K ++ '}' :: '}' :: post)) 0 =
      some (tokenMatch pre.length P K) := by
  simp only [JS.Re.exec]
  rw [if_neg (by omega), List.drop_zero]
  have e : "\x7b\x7bvault:".toList ++ P ++ ':' :: K ++ '}' :: '}' :: post =
      "\x7b\x7bvault:".toList ++ (P ++ ':' :: K ++ '}' :: '}' :: post) := by simp
  rw [search_skip referencePattern pre 0 _ (fun i hi => by
    rw [e]
    exact tryAt_before_token pre _ (0 + i) i hi hpre)]
  rw [Nat.zero_add]
  exact search_of_tryAt _ _ _ _ (tryAt_token pre.length P K post hP hPc hK hKc)

/-- No match begins after the token when the text after it holds no opening. -/
theorem exec_after_token (front post : Str) (hpost : ¬ "\x7b\x7bvault:".toList <:+: post) :
    referencePattern.exec (front ++ post) front.length = none := by
  cases h : referencePattern.exec (front ++ post) front.length with
  | none => rfl
  | some mr =>
    exfalso
    obtain ⟨pos, P, K, tail, hle, hr, _⟩ := exec_referencePattern_some _ _ mr h
    obtain ⟨j, rfl⟩ : ∃ j, pos = front.length + j := ⟨pos - front.length, by omega⟩
    rw [List.drop_append] at hr
    have hpfx : "\x7b\x7bvault:".toList <+: post.drop j := by
      rw [hr]
      exact ⟨P ++ ':' :: K ++ '}' :: '}' :: tail, by simp⟩
    exact hpost (hpfx.isInfix.trans (List.drop_suffix j post).isInfix)

/-- The token occurrences of a text that contains one token and no other opening
are that token. -/
theorem tokenOccurrences_containing (pre P K post : Str) (fuel : Nat) (hP : P ≠ [])
    (hPc : ∀ c ∈ P, c ≠ ':') (hK : K ≠ []) (hKc : ∀ c ∈ K, c ≠ '}')
    (hpre : ¬ "\x7b\x7bvault:".toList <:+: pre) (hpost : ¬ "\x7b\x7bvault:".toList <:+: post)
    (hfuel : 2 ≤ fuel) :
    tokenOccurrences (pre ++ VaultManager.referenceToken P K ++ post) fuel 0 =
      some [(P, K)] := by
  obtain ⟨f, rfl⟩ : ∃ f, fuel = f + 1 + 1 := ⟨fuel - 2, by omega⟩
  have e : pre ++ VaultManager.referenceToken P K ++ post =
      pre ++ ("\x7b\x7bvault:".toList ++ P ++ ':' :: K ++ '}' :: '}' :: post) := by
    simp [VaultManager.referenceToken]
  have hdrop : List.drop pre.length (pre ++ VaultManager.referenceToken P K ++ post) =
      "\x7b\x7bvault:".toList ++ P ++ ':' :: K ++ '}' :: '}' :: post := by
    rw [e, List.drop_left]
  obtain ⟨g1, g2, _⟩ := tokenMatch_get _ pre.length P K post hdrop
  have hexec : referencePattern.exec (pre ++ VaultManager.referenceToken P K ++ post) 0 =
      some (tokenMatch pre.length P K) := by
    rw [e]
    exact exec_containing pre P K post hP hPc hK hKc hpre
  have hstop : (tokenMatch pre.length P K).stop =
      (pre ++ VaultManager.referenceToken P K).length := by
    simp [tokenMatch, VaultManager.referenceToken]
    omega
  have hend : referencePattern.exec (pre ++ VaultManager.referenceToken P K ++ post)
      (tokenMatch pre.length P K).stop = none := by
    rw [hstop]
    exact exec_after_token (pre ++ VaultManager.referenceToken P K) post hpost
  rw [tokenOccurrences_some _ _ _ _ hexec, tokenOccurrences_none _ _ _ hend, g1, g2]
  rfl

end VaultReferenceValidator

namespace VaultManager

open JS.Re

theorem m_wordI_eos (kw : Str) (c : Cont) :
    ∀ (pos : Nat) (rest : Str) (caps : Captures),
      m (Re.seq (Re.wordI kw) Re.eos) c ⟨pos, rest, caps⟩ =
        if rest.map Char.toLower = kw then c ⟨pos + rest.length, [], caps⟩ else none := by
  induction kw with
  | nil =>
    intro pos rest caps
    cases rest with
    | nil => simp [wordI, m]
    | cons ch t => simp [wordI, m]
  | cons a w ih =>
    intro pos rest caps
    have e : m (Re.seq (Re.wordI (a :: w)) Re.eos) c ⟨pos, rest, caps⟩ =
        m (Re.chr (fun x => x.toLower == a)) (m (Re.seq (Re.wordI w) Re.eos) c)
          ⟨pos, rest, caps⟩ := rfl
    rw [e]
    cases rest with
    | nil => simp [m_chr_nil]
    | cons ch t =>
      rw [m_chr_cons]
      by_cases h : ch.toLower = a
      · simp [h, ih, Nat.add_assoc, Nat.add_comm 1]
      · simp [h]

theorem m_opt_chr (p : Char → Bool) (c : Cont) (pos : Nat) (rest : Str) (caps : Captures) :
    m (Re.opt (Re.chr p)) c ⟨pos, rest, caps⟩ =
      match rest with
      | [] => c ⟨pos, [], caps⟩
      | ch :: t =>
        if p ch then
          match c ⟨pos + 1, t, caps⟩ with
          | some z => some z
          | none => c ⟨pos, ch :: t, caps⟩
        else c ⟨pos, ch :: t, caps⟩ := by
  cases rest with
  | nil => simp [opt, m, repeatMatcher, groups, clearGroups]
  | cons ch t =>
    by_cases h : p ch = true
    · simp [opt, m, repeatMatcher, groups, clearGroups, h]
    · simp [opt, m, repeatMatcher, groups, clearGroups, h]

/-- One alternative `[_-]?<kw>$` of the suffix pattern. -/
theorem m_alternative (kw : Str) (hkw : ∀ ch t, isSep ch = true → (ch :: t).map Char.toLower ≠ kw)
    (pos : Nat) (rest : Str) (caps : Captures) :
    m (Re.seq (Re.opt (Re.chr (fun c => c == '_' || c == '-')))
        (Re.seq (Re.wordI kw) Re.eos)) some ⟨pos, rest, caps⟩ =
      if matchesKeyword kw rest then some ⟨pos + rest.length, [], caps⟩ else none := by
  have e : m (Re.seq (Re.opt (Re.chr (fun c => c == '_' || c == '-')))
        (Re.seq (Re.wordI kw) Re.eos)) some ⟨pos, rest, caps⟩ =
      m (Re.opt (Re.chr isSep)) (m (Re.seq (Re.wordI kw) Re.eos) some) ⟨pos, rest, caps⟩ := rfl
  rw [e, m_opt_chr]
  cases rest with
  | nil =>
    simp only [m_wordI_eos, matchesKeyword]
    simp
  | cons ch t =>
    simp only [m_wordI_eos, matchesKeyword]
    by_cases hs : isSep ch = true
    · have hne := hkw ch t hs
      by_cases ht : t.map Char.toLower = kw
      · simp [hs, ht]
        omega
      · simp [hs, ht, hne]
    · simp [hs]

theorem keyword_no_sep (kw : Str) (hk : kw ∈ keywords) (ch : Char) (t : Str)
    (hs : isSep ch = true) : (ch :: t).map Char.toLower ≠ kw := by
  intro h
  have hc : ch = '_' ∨ ch = '-' := by simpa [isSep] using hs
  have h1 : kw.head? = some ch.toLower := by
    rw [← h]
    rfl
  simp only [keywords, List.mem_cons, List.mem_singleton, List.not_mem_nil, or_false] at hk
  rcases hc with rfl | rfl <;> rcases hk with rfl | rfl | rfl | rfl <;> revert h1 <;> decide

/-- The suffix pattern matches at a position exactly when the input from there on
has keyword form; the match then runs to the end of the input. -/
theorem tryAt_suffixPattern (pos : Nat) (rest : Str) :
    tryAt suffixPattern pos rest =
      if keywordForm rest then some ⟨pos, pos + rest.length, []⟩ else none := by
  have hn : List.replicate suffixPattern.nGroups (none : Option (Nat × Nat)) = [] := rfl
  have e : m suffixPattern some ⟨pos, rest, []⟩ =
      match m (Re.seq (Re.opt (Re.chr (fun c => c == '_' || c == '-')))
          (Re.seq (Re.wordI "key".toList) Re.eos)) some ⟨pos, rest, []⟩ with
      | some z => some z
      | none =>
        match m (Re.seq (Re.opt (Re.chr (fun c => c == '_' || c == '-')))
            (Re.seq (Re.wordI "secret".toList) Re.eos)) some ⟨pos, rest, []⟩ with
        | some z => some z
        | none =>
          match m (Re.seq (Re.opt (Re.chr (fun c => c == '_' || c == '-')))
              (Re.seq (Re.wordI "token".toList) Re.eos)) some ⟨pos, rest, []⟩ with
          | some z => some z
          | none =>
            m (Re.seq (Re.opt (Re.chr (fun c => c == '_' || c == '-')))
              (Re.seq (Re.wordI "password".toList) Re.eos)) some ⟨pos, rest, []⟩ := rfl
  unfold tryAt
  rw [hn, e]
  rw [m_alternative _ (keyword_no_sep _ (by simp [keywords])),
    m_alternative _ (keyword_no_sep _ (by simp [keywords])),
    m_alternative _ (keyword_no_sep _ (by simp [keywords])),
    m_alternative _ (keyword_no_sep _ (by simp [keywords]))]
  simp only [keywordForm, keywords, List.any_cons, List.any_nil, Bool.or_false]
  cases matchesKeyword "key".toList rest <;> cases matchesKeyword "secret".toList rest <;>
    cases matchesKeyword "token".toList rest <;> cases matchesKeyword "password".toList rest <;>
    simp

/-- The search loop stops at the first suffix of keyword form. -/
theorem search_suffixPattern (rest : Str) :
    ∀ (pre : Str), search suffixPattern pre.length rest =
      if stripRec rest = rest then none
      else some ⟨pre.length + (stripRec rest).length, pre.length + rest.length, []⟩ := by
  induction rest with
  | nil =>
    intro pre
    simp [search, tryAt_suffixPattern, stripRec, keywordForm, keywords, matchesKeyword]
  | cons c t ih =>
    intro pre
    simp only [search, tryAt_suffixPattern, stripRec]
    by_cases hk : keywordForm (c :: t) = true
    · simp [hk]
    · have h := ih (pre ++ [c])
      simp only [List.length_append, List.length_singleton] at h
      simp only [hk, h, Bool.false_eq_true, if_false, List.cons.injEq, true_and]
      by_cases hs : stripRec t = t
      · simp [hs]
      · simp [hs]
        omega

/-- Removing the first match of the suffix pattern. -/
theorem removeFirstMatch_suffixPattern (s : Str) :
    removeFirstMatch suffixPattern s = stripRec s := by
  have h := search_suffixPattern s []
  have hlen : ∀ l : Str, (stripRec l).length ≤ l.length ∧ (stripRec l <+: l) := by
    intro l
    induction l with
    | nil => simp [stripRec]
    | cons c t ih =>
      simp only [stripRec]
      by_cases hk : keywordForm (c :: t) = true
      · simp [hk]
      · simp only [hk, Bool.false_eq_true, if_false, List.length_cons]
        exact ⟨by omega, by simpa [List.cons_prefix_cons] using ih.2⟩
  simp only [removeFirstMatch, JS.Re.exec, List.drop_zero]
  rw [if_neg (by omega)]
  simp only [List.length_nil, Nat.zero_add] at h
  rw [h]
  by_cases hs : stripRec s = s
  · simp [hs]
  · simp only [hs, if_false, List.drop_length, List.append_nil]
    exact List.prefix_iff_eq_take.mp (hlen s).2 |>.symm

end VaultManager

namespace VaultManager

theorem find_congr {α : Type} (p q : α → Bool) (l : List α) (h : ∀ x ∈ l, p x = q x) :
    l.find? p = l.find? q := by
  induction l with
  | nil => rfl
  | cons a t ih =>
    simp only [List.find?, h a (List.mem_cons_self _ _)]
    rw [ih (fun x hx => h x (List.mem_cons_of_mem _ hx))]

theorem keywordForm_false (s : Str) (h : keywordForm s = false) (kw : Str)
    (hk : kw ∈ keywords) : matchesKeyword kw s = false := by
  simp only [keywordForm, List.any_eq_false] at h
  simpa using h kw hk

theorem stripKeyword_of_form (s : Str) (h : keywordForm s = true) : stripKeyword s = [] := by
  simp only [keywordForm, List.any_eq_true] at h
  obtain ⟨kw, hk, hm⟩ := h
  simp only [matchesKeyword, Bool.or_eq_true, beq_iff_eq] at hm
  simp only [keywords, List.mem_cons, List.mem_singleton, List.not_mem_nil, or_false] at hk
  rcases hm with hm | hm
  · have hl : s.length = kw.length := by
      rw [← hm, List.length_map]
    have hf : keywords.find? (endsWithI s) = some kw := by
      have e : endsWithI s = fun k => k.isSuffixOf kw := by
        funext k
        simp only [endsWithI, hm]
      rw [e]
      rcases hk with rfl | rfl | rfl | rfl <;> decide
    simp [stripKeyword, hf, hl]
  · cases s with
    | nil => simp at hm
    | cons ch t =>
      simp only [Bool.and_eq_true, beq_iff_eq] at hm
      obtain ⟨hs, ht⟩ := hm
      have hl : t.length = kw.length := by
        rw [← ht, List.length_map]
      have hc : ch = '_' ∨ ch = '-' := by simpa [isSep] using hs
      have hf : keywords.find? (endsWithI (ch :: t)) = some kw := by
        have e : endsWithI (ch :: t) = fun k => k.isSuffixOf (ch.toLower :: kw) := by
          funext k
          simp only [endsWithI, List.map_cons, ht]
        rw [e]
        rcases hc with rfl | rfl <;> rcases hk with rfl | rfl | rfl | rfl <;> decide
      simp [stripKeyword, hf, hl, hs]

theorem stripKeyword_cons (c : Char) (t : Str) (h : keywordForm (c :: t) = false) :
    stripKeyword (c :: t) = c :: stripKeyword t := by
  have hm := keywordForm_false (c :: t) h
  have hfind : keywords.find? (endsWithI (c :: t)) = keywords.find? (endsWithI t) := by
    apply find_congr
    intro kw hk
    have h1 := hm kw hk
    simp only [matchesKeyword, Bool.or_eq_false_iff, beq_eq_false_iff_ne] at h1
    simp only [endsWithI, List.map_cons]
    rw [Bool.eq_iff_iff]
    simp only [List.isSuffixOf_iff_suffix, List.suffix_cons_iff]
    constructor
    · rintro (e | e)
      · exact absurd e.symm (by simpa using h1.1)
      · exact e
    · exact Or.inr
  simp only [stripKeyword, hfind]
  cases hf : keywords.find? (endsWithI t) with
  | none => rfl
  | some kw =>
    have hk : kw ∈ keywords := List.mem_of_find?_eq_some hf
    have hsuf : kw <:+ t.map Char.toLower := by
      have := List.find?_some hf
      simpa [endsWithI] using this
    have hle : kw.length ≤ t.length := by
      simpa using hsuf.length_le
    have e1 : (c :: t).length - kw.length = (t.length - kw.length) + 1 := by
      simp only [List.length_cons]
      omega
    simp only [e1, List.take_succ_cons]
    cases hb : List.take (t.length - kw.length) t with
    | nil =>
      have hlen : t.length = kw.length := by
        have := congrArg List.length hb
        simp at this
        omega
      have hteq : t.map Char.toLower = kw := by
        have := hsuf.eq_of_length (by simp [hlen])
        exact this.symm
      have h1 := hm kw hk
      simp only [matchesKeyword, Bool.or_eq_false_iff, Bool.and_eq_false_iff] at h1
      have hns : isSep c = false := by
        rcases h1.2 with h2 | h2
        · exact h2
        · simp [hteq] at h2
      simp [hns]
    | cons b bs =>
      simp only [List.getLast?_cons_cons]
      cases hg : (b :: bs).getLast? with
      | none => simp at hg
      | some d =>
        simp only
        by_cases hd : isSep d = true
        · simp [hd]
        · simp [hd]

/-- The first suffix of keyword form is the keyword suffix of the wording. -/
theorem stripRec_eq_stripKeyword (s : Str) : stripRec s = stripKeyword s := by
  induction s with
  | nil => decide
  | cons c t ih =>
    simp only [stripRec]
    by_cases h : keywordForm (c :: t) = true
    · rw [if_pos h, stripKeyword_of_form _ h]
    · have h2 : keywordForm (c :: t) = false := by simpa using h
      rw [if_neg h, stripKeyword_cons c t h2, ih]

theorem writeFile_bytes (fs fs1 : FileSystem) (p content : Str)
    (h : fs.writeFile p content = some fs1) :
    fs1.resolve = fs.resolve ∧ fs1.writable = fs.writable ∧
      fs.writable (fs.resolve p) = true ∧
      ∀ f, fs1.bytes f = if f = fs.resolve p then some (Utf8.encode content) else fs.bytes f := by
  unfold FileSystem.writeFile at h
  split at h
  · rename_i hw
    cases h
    exact ⟨rfl, rfl, hw, fun _ => rfl⟩
  · cases h

/-- Rewriting one file changes nothing but that file and its backup. -/
theorem rewriteFile_frame (o : Options) (fs : FileSystem) (location : Str × List Secret) :
    (rewriteFile o fs location).resolve = fs.resolve ∧
      (rewriteFile o fs location).writable = fs.writable ∧
      ∀ f, f ≠ fs.resolve location.1 → f ≠ fs.resolve (backupPath o location.1) →
        (rewriteFile o fs location).bytes f = fs.bytes f := by
  cases hr : fs.readFile location.1 with
  | none =>
    have e : rewriteFile o fs location = fs := by simp only [rewriteFile, rewriteFileStep, hr]
    rw [e]
    exact ⟨rfl, rfl, fun _ _ _ => rfl⟩
  | some content =>
    cases hb : fs.writeFile (backupPath o location.1) content with
    | none =>
      have e : rewriteFile o fs location = fs := by
        simp only [rewriteFile, rewriteFileStep, hr, hb]
      rw [e]
      exact ⟨rfl, rfl, fun _ _ _ => rfl⟩
    | some fs1 =>
      obtain ⟨r1, w1, _, f1⟩ := writeFile_bytes _ _ _ _ hb
      cases hw : fs1.writeFile location.1
          (location.2.foldl (replaceSecret o) content) with
      | none =>
        have e : rewriteFile o fs location = fs1 := by
          simp only [rewriteFile, rewriteFileStep, hr, hb, hw]
        rw [e]
        refine ⟨r1, w1, fun f _ h2 => ?_⟩
        simp only [f1 f, if_neg h2]
      | some fs2 =>
        have e : rewriteFile o fs location = fs2 := by
          simp only [rewriteFile, rewriteFileStep, hr, hb, hw]
        rw [e]
        obtain ⟨r2, w2, _, f2⟩ := writeFile_bytes _ _ _ _ hw
        refine ⟨r2.trans r1, w2.trans w1, fun f h1 h2 => ?_⟩
        rw [r1] at f2
        simp only [f2 f, if_neg h1, f1 f, if_neg h2]

theorem rewriteFiles_frame (o : Options) (locations : List (Str × List Secret)) :
    ∀ fs : FileSystem, (locations.foldl (rewriteFile o) fs).resolve = fs.resolve ∧
      (locations.foldl (rewriteFile o) fs).writable = fs.writable ∧
      ∀ f, (∀ l ∈ locations, f ≠ fs.resolve l.1 ∧ f ≠ fs.resolve (backupPath o l.1)) →
        (locations.foldl (rewriteFile o) fs).bytes f = fs.bytes f := by
  induction locations with
  | nil => exact fun fs => ⟨rfl, rfl, fun _ _ => rfl⟩
  | cons l rest ih =>
    intro fs
    obtain ⟨r1, w1, f1⟩ := rewriteFile_frame o fs l
    obtain ⟨r2, w2, f2⟩ := ih (rewriteFile o fs l)
    refine ⟨r2.trans r1, w2.trans w1, fun f hf => ?_⟩
    simp only [List.foldl_cons]
    rw [f2 f (fun l2 hl2 => by rw [r1]; exact hf l2 (List.mem_cons_of_mem _ hl2))]
    exact f1 f (hf l (List.mem_cons_self _ _)).1 (hf l (List.mem_cons_self _ _)).2

/-- A pass that overwrote its file read it, wrote its text to the backup and then
wrote the replaced text to the file. -/
theorem rewriteFileStep_overwrote (o : Options) (fs : FileSystem)
    (location : Str × List Secret) (h : (rewriteFileStep o fs location).2 = true) :
    ∃ b, fs.bytes (fs.resolve location.1) = some b ∧
      fs.writable (fs.resolve (backupPath o location.1)) = true ∧
      fs.writable (fs.resolve location.1) = true ∧
      (rewriteFile o fs location).bytes (fs.resolve location.1) =
        some (Utf8.encode (location.2.foldl (replaceSecret o) (Utf8.decode b))) ∧
      (fs.resolve location.1 ≠ fs.resolve (backupPath o location.1) →
        (rewriteFile o fs location).bytes (fs.resolve (backupPath o location.1)) =
          some (Utf8.encode (Utf8.decode b))) := by
  cases hb0 : fs.bytes (fs.resolve location.1) with
  | none =>
    have hr : fs.readFile location.1 = none := by simp [FileSystem.readFile, hb0]
    simp [rewriteFileStep, hr] at h
  | some b =>
    have hr : fs.readFile location.1 = some (Utf8.decode b) := by
      simp [FileSystem.readFile, hb0]
    cases hb : fs.writeFile (backupPath o location.1) (Utf8.decode b) with
    | none => simp [rewriteFileStep, hr, hb] at h
    | some fs1 =>
      obtain ⟨r1, w1, wb, f1⟩ := writeFile_bytes _ _ _ _ hb
      cases hw : fs1.writeFile location.1
          (location.2.foldl (replaceSecret o) (Utf8.decode b)) with
      | none => simp [rewriteFileStep, hr, hb, hw] at h
      | some fs2 =>
        obtain ⟨_, _, ww, f2⟩ := writeFile_bytes _ _ _ _ hw
        rw [r1] at f2
        rw [w1, r1] at ww
        have e : rewriteFile o fs location = fs2 := by
          simp only [rewriteFile, rewriteFileStep, hr, hb, hw]
        rw [e]
        refine ⟨b, rfl, wb, ww, ?_, fun hne => ?_⟩
        · rw [f2, if_pos rfl]
        · rw [f2, if_neg (fun e2 => hne e2.symm), f1, if_pos rfl]

theorem ownProperty_none (o : ByType) (k : Str) (h : ownProperty o k = none) :
    k ∉ o.map (·.1) := by
  induction o with
  | nil => simp
  | cons e t ih =>
    simp only [ownProperty, List.find?] at h
    by_cases he : e.1 = k
    · simp [he] at h
    · simp only [he, decide_False] at h
      simp only [List.map_cons, List.mem_cons, not_or]
      exact ⟨fun e2 => he e2.symm, ih h⟩

theorem ownProperty_some (o : ByType) (k : Str) (arr : List Secret)
    (h : ownProperty o k = some arr) : k ∈ o.map (·.1) := by
  by_contra hk
  have : o.find? (fun e => e.1 = k) = none := by
    rw [List.find?_eq_none]
    intro e he
    simp only [decide_eq_true_eq]
    intro e2
    exact hk (List.mem_map.mpr ⟨e, he, e2⟩)
  simp [ownProperty, this] at h

theorem pushOwn_keys (o : ByType) (k : Str) (s : Secret) :
    (pushOwn o k s).map (·.1) = o.map (·.1) := by
  induction o with
  | nil => rfl
  | cons e t ih =>
    simp only [pushOwn, List.map_cons] at ih ⊢
    rw [ih]
    by_cases he : e.1 = k
    · simp [he]
    · simp [he]

theorem pushOwn_of_not_mem (o : ByType) (k : Str) (s : Secret) (h : k ∉ o.map (·.1)) :
    pushOwn o k s = o := by
  induction o with
  | nil => rfl
  | cons e t ih =>
    simp only [List.map_cons, List.mem_cons, not_or] at h
    simp only [pushOwn, List.map_cons] at ih ⊢
    rw [ih h.2, if_neg (fun e2 => h.1 e2.symm)]

theorem pushOwn_sum (o : ByType) (k : Str) (s : Secret) (hn : (o.map (·.1)).Nodup)
    (hk : k ∈ o.map (·.1)) :
    ((pushOwn o k s).map (·.2.length)).sum = (o.map (·.2.length)).sum + 1 := by
  induction o with
  | nil => simp at hk
  | cons e t ih =>
    simp only [List.map_cons, List.nodup_cons] at hn
    by_cases he : e.1 = k
    · have ht : pushOwn t k s = t := pushOwn_of_not_mem t k s (by rw [← he]; exact hn.1)
      have e1 : pushOwn (e :: t) k s = (e.1, e.2 ++ [s]) :: pushOwn t k s := by
        simp [pushOwn, he]
      rw [e1, ht]
      simp
      omega
    · have hk2 : k ∈ t.map (·.1) := by
        simp only [List.map_cons, List.mem_cons] at hk
        rcases hk with h1 | h1
        · exact absurd h1.symm he
        · exact h1
      have e1 : pushOwn (e :: t) k s = e :: pushOwn t k s := by
        simp [pushOwn, he]
      rw [e1]
      simp only [List.map_cons, List.sum_cons]
      rw [ih hn.2 hk2]
      omega

/-- Grouping by type adds every secret to the per-type lists when no type names
a property inherited from `Object.prototype`. -/
theorem organizeByType_sum (l : List Secret) :
    ∀ o : ByType, (o.map (·.1)).Nodup → (∀ s ∈ l, s.type ∉ objectPrototypeKeys) →
      ((organizeByType l o).map (·.1)).Nodup ∧
        ((organizeByType l o).map (·.2.length)).sum = (o.map (·.2.length)).sum + l.length := by
  induction l with
  | nil =>
    intro o hn _
    exact ⟨hn, rfl⟩
  | cons s rest ih =>
    intro o hn hp
    have hs := hp s (List.mem_cons_self _ _)
    have hrest : ∀ x ∈ rest, x.type ∉ objectPrototypeKeys :=
      fun x hx => hp x (List.mem_cons_of_mem _ hx)
    cases ho : ownProperty o s.type with
    | some arr =>
      have hk := ownProperty_some o s.type arr ho
      have e1 : organizeByType (s :: rest) o = organizeByType rest (pushOwn o s.type s) := by
        simp only [organizeByType, ho]
      obtain ⟨n2, s2⟩ := ih (pushOwn o s.type s) (by rw [pushOwn_keys]; exact hn) hrest
      rw [e1]
      refine ⟨n2, ?_⟩
      rw [s2, pushOwn_sum o s.type s hn hk, List.length_cons]
      omega
    | none =>
      have hk := ownProperty_none o s.type ho
      have e1 : organizeByType (s :: rest) o = organizeByType rest (o ++ [(s.type, [s])]) := by
        simp only [organizeByType, ho, if_neg hs]
      have hn2 : ((o ++ [(s.type, [s])]).map (·.1)).Nodup := by
        rw [List.map_append, List.nodup_append]
        refine ⟨hn, by simp, ?_⟩
        intro a ha hb
        simp only [List.map_cons, List.map_nil, List.mem_singleton] at hb
        exact hk (hb ▸ ha)
      obtain ⟨n2, s2⟩ := ih (o ++ [(s.type, [s])]) hn2 hrest
      rw [e1]
      refine ⟨n2, ?_⟩
      rw [s2, List.length_cons]
      simp
      omega

theorem matchLoop_type (type : Str) (config : PatternConfig) (filePath content : Str)
    (pattern : RegExp) :
    ∀ (fuel lastIndex : Nat) (l : List Secret),
      matchLoop type config filePath content pattern fuel lastIndex = some l →
      ∀ s ∈ l, s.type = type := by
  intro fuel
  induction fuel with
  | zero =>
    intro i l h
    cases h
  | succ f ih =>
    intro i l h
    cases he : pattern content i with
    | none =>
      simp only [matchLoop, he] at h
      cases h
      intro s hs
      cases hs
    | some mr =>
      simp only [matchLoop, he] at h
      cases hr : matchLoop type config filePath content pattern f mr.stop with
      | none => simp [hr] at h
      | some l2 =>
        simp only [hr, Option.map_some', Option.some.injEq] at h
        subst h
        intro s hs
        rcases List.mem_cons.mp hs with h1 | h1
        · subst h1
          rfl
        · exact ih mr.stop l2 hr s h1

theorem detectWithPatterns_type (type : Str) (config : PatternConfig) (filePath content : Str)
    (fuel : Nat) (patterns : List (Option RegExp)) :
    ∀ l, detectWithPatterns type config filePath content fuel patterns = .ok l →
      ∀ s ∈ l, s.type = type := by
  induction patterns with
  | nil =>
    intro l h
    simp only [detectWithPatterns, Outcome.ok.injEq] at h
    subst h
    intro s hs
    cases hs
  | cons p rest ih =>
    intro l h
    cases p with
    | none => simp [detectWithPatterns] at h
    | some pattern =>
      simp only [detectWithPatterns] at h
      cases hm : matchLoop type config filePath content pattern fuel 0 with
      | none => simp [hm] at h
      | some found =>
        cases hr : detectWithPatterns type config filePath content fuel rest with
        | ok more =>
          simp only [hm, hr, Outcome.ok.injEq] at h
          subst h
          intro s hs
          rcases List.mem_append.mp hs with h1 | h1
          · exact matchLoop_type _ _ _ _ _ _ _ _ hm s h1
          · exact ih more hr s h1
        | throws => simp [hm, hr] at h
        | unfinished => simp [hm, hr] at h

theorem detectSecretsInContent_type (secretPatterns : Registry) (content filePath : Str)
    (fuel : Nat) :
    ∀ l, detectSecretsInContent secretPatterns content filePath fuel = .ok l →
      ∀ s ∈ l, s.type ∈ secretPatterns.map (·.1) := by
  induction secretPatterns with
  | nil =>
    intro l h
    simp only [detectSecretsInContent, Outcome.ok.injEq] at h
    subst h
    intro s hs
    cases hs
  | cons e rest ih =>
    intro l h
    obtain ⟨type, config⟩ := e
    simp only [detectSecretsInContent] at h
    cases hd : detectWithPatterns type config filePath content fuel config.patterns with
    | ok found =>
      cases hr : detectSecretsInContent rest content filePath fuel with
      | ok more =>
        simp only [hd, hr, Outcome.ok.injEq] at h
        subst h
        intro s hs
        rcases List.mem_append.mp hs with h1 | h1
        · have ht := detectWithPatterns_type _ _ _ _ _ _ _ hd s h1
          rw [ht]
          exact List.mem_cons_self _ _
        · exact List.mem_cons_of_mem _ (ih more hr s h1)
      | throws => simp [hd, hr] at h
      | unfinished => simp [hd, hr] at h
    | throws => simp [hd] at h
    | unfinished => simp [hd] at h

theorem scanFile_invariant (secretPatterns : Registry) (fs : FileSystem) (fuel : Nat)
    (r r1 : ScanResults) (file : Str)
    (hinv : CountInvariant (∀ e ∈ secretPatterns, e.1 ∉ objectPrototypeKeys) r)
    (h : scanFile secretPatterns fs fuel r file = some r1) :
    CountInvariant (∀ e ∈ secretPatterns, e.1 ∉ objectPrototypeKeys) r1 := by
  unfold scanFile at h
  cases hr : fs.readFile file with
  | none =>
    simp only [hr, Option.some.injEq] at h
    exact h ▸ hinv
  | some content =>
    cases hd : detectSecretsInContent secretPatterns content file fuel with
    | unfinished => simp [hr, hd] at h
    | throws =>
      simp only [hr, hd, Option.some.injEq] at h
      exact h ▸ hinv
    | ok fileSecrets =>
      simp only [hr, hd] at h
      by_cases hl : fileSecrets.length > 0
      · rw [if_pos hl] at h
        simp only [Option.some.injEq] at h
        subst h
        refine ⟨?_, fun hclean => ?_⟩
        · simp only [List.map_append, List.sum_append, List.map_cons, List.map_nil,
            List.sum_cons, List.sum_nil, Nat.add_zero]
          rw [hinv.1]
        · obtain ⟨hn, hs⟩ := hinv.2 hclean
          have htypes : ∀ s ∈ fileSecrets, s.type ∉ objectPrototypeKeys := by
            intro s hs2
            obtain ⟨e, he, he2⟩ := List.mem_map.mp
              (detectSecretsInContent_type _ _ _ _ _ hd s hs2)
            rw [← he2]
            exact hclean e he
          obtain ⟨n2, s2⟩ := organizeByType_sum fileSecrets r.secretsByType hn htypes
          exact ⟨n2, by simp only [s2, hs]⟩
      · rw [if_neg hl] at h
        simp only [Option.some.injEq] at h
        exact h ▸ hinv

theorem scanFiles_invariant (secretPatterns : Registry) (fs : FileSystem) (fuel : Nat)
    (files : List Str) :
    ∀ r r1 : ScanResults,
      CountInvariant (∀ e ∈ secretPatterns, e.1 ∉ objectPrototypeKeys) r →
      scanFiles secretPatterns fs fuel files r = some r1 →
      CountInvariant (∀ e ∈ secretPatterns, e.1 ∉ objectPrototypeKeys) r1 := by
  induction files with
  | nil =>
    intro r r1 hinv h
    simp only [scanFiles, Option.some.injEq] at h
    exact h ▸ hinv
  | cons file rest ih =>
    intro r r1 hinv h
    simp only [scanFiles] at h
    cases hf : scanFile secretPatterns fs fuel r file with
    | none => simp [hf] at h
    | some r2 =>
      simp only [hf] at h
      exact ih r2 r1 (scanFile_invariant _ _ _ _ _ _ hinv hf) h

/-- The count invariant of the scan report: the total always equals the sum of
the per-file counts, and equals the sum of the per-type counts when no secret
type of the registry has the name of a property inherited from
`Object.prototype`. -/
theorem scanForSecrets_counts (secretPatterns : Registry) (fs : FileSystem) (fuel : Nat)
    (files : List Str) (report : ScanResults)
    (h : scanForSecrets secretPatterns fs fuel files = some report) :
    report.secretsFound = (report.secretLocations.map (·.2.length)).sum ∧
      ((∀ e ∈ secretPatterns, e.1 ∉ objectPrototypeKeys) →
        report.secretsFound = (report.secretsByType.map (·.2.length)).sum) := by
  have h0 : CountInvariant (∀ e ∈ secretPatterns, e.1 ∉ objectPrototypeKeys)
      { totalFiles := files.length, secretsFound := 0, secretsByType := [],
        secretLocations := [] } := ⟨rfl, fun _ => ⟨List.nodup_nil, rfl⟩⟩
  have hinv := scanFiles_invariant secretPatterns fs fuel files _ report h0 h
  exact ⟨hinv.1, fun hc => (hinv.2 hc).2⟩

end VaultManager

namespace VaultReferenceValidator

theorem extractedTuples_none (content : Str) (f i : Nat)
    (h : referencePattern.exec content i = none) :
    extractedTuples content (f + 1) i = some [] := by
  simp only [extractedTuples, h]

theorem extractedTuples_some (content : Str) (f i : Nat) (mr : MatchResult)
    (h : referencePattern.exec content i = some mr) :
    extractedTuples content (f + 1) i =
      (extractedTuples content f mr.stop).map
        (((mr.get content 0).getD [], (mr.get content 1).getD [],
          (mr.get content 2).getD []) :: ·) := by
  simp only [extractedTuples, h]

/-- The decoded pairs are the tuples without the matched text. -/
theorem tokenOccurrences_eq (content : Str) :
    ∀ fuel lastIndex, tokenOccurrences content fuel lastIndex =
      (extractedTuples content fuel lastIndex).map (List.map (fun t => (t.2.1, t.2.2))) := by
  intro fuel
  induction fuel with
  | zero => intro i; rfl
  | succ f ih =>
    intro i
    cases h : referencePattern.exec content i with
    | none => rw [tokenOccurrences_none _ _ _ h, extractedTuples_none _ _ _ h]; rfl
    | some mr =>
      rw [tokenOccurrences_some _ _ _ _ h, extractedTuples_some _ _ _ _ h, ih]
      cases extractedTuples content f mr.stop with
      | none => rfl
      | some l => rfl

/-- Re-encoding an extracted tuple gives back the matched text. -/
theorem extractedTuples_encode (content : Str) :
    ∀ fuel lastIndex l, extractedTuples content fuel lastIndex = some l →
      ∀ t ∈ l, VaultManager.referenceToken t.2.1 t.2.2 = t.1 := by
  intro fuel
  induction fuel with
  | zero =>
    intro i l h
    cases h
  | succ f ih =>
    intro i l h
    cases he : referencePattern.exec content i with
    | none =>
      rw [extractedTuples_none content f i he] at h
      cases h
      intro t ht
      cases ht
    | some mr =>
      rw [extractedTuples_some content f i mr he] at h
      obtain ⟨pos, P, K, tail, _, hr, _, _, _, _, hm⟩ :=
        exec_referencePattern_some content i mr he
      obtain ⟨g1, g2, g0⟩ := tokenMatch_get content pos P K tail hr
      cases hrec : extractedTuples content f mr.stop with
      | none =>
        rw [hrec] at h
        cases h
      | some l2 =>
        rw [hrec] at h
        simp only [Option.map_some', Option.some.injEq] at h
        subst h
        intro t ht
        rcases List.mem_cons.mp ht with h1 | h1
        · subst h1
          subst hm
          simp only [g0, g1, g2, Option.getD_some]
          rfl
        · exact ih mr.stop l2 hrec t h1

end VaultReferenceValidator

namespace VaultManager

theorem toLower_ne_brace (c : Char) (h : c ≠ '}') : c.toLower ≠ '}' := by
  simp only [Char.toLower]
  by_cases hn : c.toNat ≥ 65 ∧ c.toNat ≤ 90
  · rw [if_pos hn]
    obtain ⟨lo, hi⟩ := hn
    generalize c.toNat = n at lo hi
    interval_cases n <;> decide
  · rw [if_neg hn]
    exact h

/-- The cleaned identifier never holds a `}`. -/
theorem cleanIdentifier_no_brace (s : Str) :
    ∀ c ∈ toLowerCase (replaceUnsafeChars s), c ≠ '}' := by
  intro c hc
  simp only [toLowerCase, replaceUnsafeChars, List.mem_map, List.mem_flatten] at hc
  obtain ⟨y, ⟨l, ⟨x, _, rfl⟩, hy⟩, rfl⟩ := hc
  apply toLower_ne_brace
  by_cases hk : keyChar x = true
  · rw [if_pos hk, List.mem_singleton] at hy
    intro e
    rw [hy] at e
    rw [e] at hk
    exact absurd hk (by decide)
  · rw [if_neg hk] at hy
    rw [(List.mem_replicate.mp hy).2]
    decide

/-- The derived key holds a `}` only if the directory or the file name does. -/
theorem generateSecretKey_no_brace (filePath identifier : Str)
    (hdir : ∀ c ∈ Path.basename (Path.dirname filePath), c ≠ '}')
    (hfile : ∀ c ∈ Path.basename filePath, c ≠ '}') :
    ∀ c ∈ generateSecretKey filePath identifier, c ≠ '}' := by
  intro c hc
  simp only [generateSecretKey, List.mem_append, List.mem_cons] at hc
  rcases hc with (h1 | h1 | h1) | h1 | h1
  · exact hdir c h1
  · rw [h1]
    decide
  · exact hfile c h1
  · rw [h1]
    decide
  · exact cleanIdentifier_no_brace _ c h1

theorem generateSecretKey_ne_nil (filePath identifier : Str) :
    generateSecretKey filePath identifier ≠ [] := by
  simp [generateSecretKey]

theorem storePath_no_colon (o : Options) (secret : Secret)
    (hmount : ∀ c ∈ o.mountPath, c ≠ ':') (hbase : ∀ c ∈ o.basePath, c ≠ ':')
    (hproj : ∀ c ∈ o.projectName, c ≠ ':') (hsub : ∀ c ∈ secret.vaultPath, c ≠ ':') :
    storePath o secret ≠ [] ∧ ∀ c ∈ storePath o secret, c ≠ ':' := by
  refine ⟨by simp [storePath], ?_⟩
  intro c hc
  simp only [storePath, List.mem_append, List.mem_cons] at hc
  rcases hc with ((h1 | h1 | h1) | h1 | h1) | h1 | h1
  · exact hmount c h1
  · rw [h1]
    decide
  · exact hbase c h1
  · rw [h1]
    decide
  · exact hproj c h1
  · rw [h1]
    decide
  · exact hsub c h1

theorem matchLoop_mk (type : Str) (config : PatternConfig) (filePath content : Str)
    (pattern : RegExp) :
    ∀ (fuel lastIndex : Nat) (l : List Secret),
      matchLoop type config filePath content pattern fuel lastIndex = some l →
      ∀ s ∈ l, ∃ mr, s = mkSecret type config filePath content mr := by
  intro fuel
  induction fuel with
  | zero =>
    intro i l h
    cases h
  | succ f ih =>
    intro i l h
    cases he : pattern content i with
    | none =>
      simp only [matchLoop, he] at h
      cases h
      intro s hs
      cases hs
    | some mr =>
      simp only [matchLoop, he] at h
      cases hr : matchLoop type config filePath content pattern f mr.stop with
      | none => simp [hr] at h
      | some l2 =>
        simp only [hr, Option.map_some', Option.some.injEq] at h
        subst h
        intro s hs
        rcases List.mem_cons.mp hs with h1 | h1
        · exact ⟨mr, h1⟩
        · exact ih mr.stop l2 hr s h1

theorem detectWithPatterns_mk (type : Str) (config : PatternConfig) (filePath content : Str)
    (fuel : Nat) (patterns : List (Option RegExp)) :
    ∀ l, detectWithPatterns type config filePath content fuel patterns = .ok l →
      ∀ s ∈ l, ∃ mr, s = mkSecret type config filePath content mr := by
  induction patterns with
  | nil =>
    intro l h
    simp only [detectWithPatterns, Outcome.ok.injEq] at h
    subst h
    intro s hs
    cases hs
  | cons p rest ih =>
    intro l h
    cases p with
    | none => simp [detectWithPatterns] at h
    | some pattern =>
      simp only [detectWithPatterns] at h
      cases hm : matchLoop type config filePath content pattern fuel 0 with
      | none => simp [hm] at h
      | some found =>
        cases hr : detectWithPatterns type config filePath content fuel rest with
        | ok more =>
          simp only [hm, hr, Outcome.ok.injEq] at h
          subst h
          intro s hs
          rcases List.mem_append.mp hs with h1 | h1
          · exact matchLoop_mk _ _ _ _ _ _ _ _ hm s h1
          · exact ih more hr s h1
        | throws => simp [hm, hr] at h
        | unfinished => simp [hm, hr] at h

/-- Every detection is the record built from a match of a pattern of the
registry. -/
theorem detectSecretsInContent_mk (secretPatterns : Registry) (content filePath : Str)
    (fuel : Nat) :
    ∀ l, detectSecretsInContent secretPatterns content filePath fuel = .ok l →
      ∀ s ∈ l, ∃ e ∈ secretPatterns, ∃ mr, s = mkSecret e.1 e.2 filePath content mr := by
  induction secretPatterns with
  | nil =>
    intro l h
    simp only [detectSecretsInContent, Outcome.ok.injEq] at h
    subst h
    intro s hs
    cases hs
  | cons e rest ih =>
    intro l h
    obtain ⟨type, config⟩ := e
    simp only [detectSecretsInContent] at h
    cases hd : detectWithPatterns type config filePath content fuel config.patterns with
    | ok found =>
      cases hr : detectSecretsInContent rest content filePath fuel with
      | ok more =>
        simp only [hd, hr, Outcome.ok.injEq] at h
        subst h
        intro s hs
        rcases List.mem_append.mp hs with h1 | h1
        · obtain ⟨mr, hmr⟩ := detectWithPatterns_mk _ _ _ _ _ _ _ hd s h1
          exact ⟨(type, config), List.mem_cons_self _ _, mr, hmr⟩
        · obtain ⟨e2, he2, mr, hmr⟩ := ih more hr s h1
          exact ⟨e2, List.mem_cons_of_mem _ he2, mr, hmr⟩
      | throws => simp [hd, hr] at h
      | unfinished => simp [hd, hr] at h
    | throws => simp [hd] at h
    | unfinished => simp [hd] at h

/-- A match loop whose pattern returns a match that leaves `lastIndex` where it
is never ends: no bound on the number of `exec` calls is enough. -/
theorem matchLoop_stuck (type : Str) (config : PatternConfig) (filePath content : Str)
    (pattern : RegExp) (i : Nat) (mr : MatchResult) (h : pattern content i = some mr)
    (hstop : mr.stop = i) :
    ∀ fuel, matchLoop type config filePath content pattern fuel i = none := by
  intro fuel
  induction fuel with
  | zero => rfl
  | succ f ih =>
    simp only [matchLoop, h, hstop, ih]
    rfl

/-- A match loop whose pattern always moves `lastIndex` forward, inside the
content, ends: with more `exec` calls allowed than the content has characters
left, it returns its list of detections. -/
theorem matchLoop_finishes (type : Str) (config : PatternConfig) (filePath content : Str)
    (pattern : RegExp)
    (hprogress : ∀ i mr, pattern content i = some mr → i < mr.stop ∧ mr.stop ≤ content.length) :
    ∀ fuel lastIndex, 0 < fuel → content.length < fuel + lastIndex →
      ∃ l, matchLoop type config filePath content pattern fuel lastIndex = some l := by
  intro fuel
  induction fuel with
  | zero =>
    intro i h0
    omega
  | succ f ih =>
    intro i _ hi
    cases h : pattern content i with
    | none => exact ⟨[], by simp only [matchLoop, h]⟩
    | some mr =>
      obtain ⟨h1, h2⟩ := hprogress i mr h
      obtain ⟨l, hl⟩ := ih mr.stop (by omega) (by omega)
      exact ⟨_, by simp only [matchLoop, h, hl]; rfl⟩

theorem detectWithPatterns_finishes (type : Str) (config : PatternConfig)
    (filePath content : Str) (fuel : Nat) (hfuel : content.length < fuel)
    (patterns : List (Option RegExp))
    (hvalid : ∀ p ∈ patterns, ∃ pattern, p = some pattern ∧
      ∀ i mr, pattern content i = some mr → i < mr.stop ∧ mr.stop ≤ content.length) :
    ∃ l, detectWithPatterns type config filePath content fuel patterns = .ok l := by
  induction patterns with
  | nil => exact ⟨[], rfl⟩
  | cons p rest ih =>
    obtain ⟨pattern, rfl, hp⟩ := hvalid p (List.mem_cons_self _ _)
    obtain ⟨found, hfound⟩ := matchLoop_finishes type config filePath content pattern hp
      fuel 0 (by omega) (by omega)
    obtain ⟨more, hmore⟩ := ih (fun q hq => hvalid q (List.mem_cons_of_mem _ hq))
    exact ⟨found ++ more, by simp only [detectWithPatterns, hfound, hmore]⟩

/-- Detection ends for a registry of valid patterns that never return an empty
match: with more `exec` calls allowed than the content has characters, it
returns its list of detections. -/
theorem detectSecretsInContent_finishes (secretPatterns : Registry) (content filePath : Str)
    (fuel : Nat) (hfuel : content.length < fuel)
    (hvalid : ∀ e ∈ secretPatterns, ∀ p ∈ e.2.patterns, ∃ pattern, p = some pattern ∧
      ∀ i mr, pattern content i = some mr → i < mr.stop ∧ mr.stop ≤ content.length) :
    ∃ l, detectSecretsInContent secretPatterns content filePath fuel = .ok l := by
  induction secretPatterns with
  | nil => exact ⟨[], rfl⟩
  | cons e rest ih =>
    obtain ⟨type, config⟩ := e
    obtain ⟨found, hfound⟩ := detectWithPatterns_finishes type config filePath content fuel
      hfuel config.patterns (hvalid (type, config) (List.mem_cons_self _ _))
    obtain ⟨more, hmore⟩ := ih (fun e2 he2 => hvalid e2 (List.mem_cons_of_mem _ he2))
    exact ⟨found ++ more, by simp only [detectSecretsInContent, hfound, hmore]⟩

end VaultManager

namespace JS

theorem startsWith_iff (s p : Str) : startsWith s p = true ↔ p <+: s := by
  induction p generalizing s with
  | nil => simp [startsWith]
  | cons d p ih =>
    cases s with
    | nil => simp [startsWith]
    | cons c s =>
      simp only [startsWith, Bool.and_eq_true, beq_iff_eq, ih, List.cons_prefix_cons]
      constructor
      · rintro ⟨h1, h2⟩
        exact ⟨h1.symm, h2⟩
      · rintro ⟨h1, h2⟩
        exact ⟨h1.symm, h2⟩

/-- The first occurrence found by `indexOf` splits the string around the needle. -/
theorem indexOf_of_infix (s needle : Str) (h : needle <:+: s) :
    ∃ i, indexOf s needle = some i ∧
      s = s.take i ++ needle ++ s.drop (i + needle.length) := by
  induction s with
  | nil =>
    have hn : needle = [] := List.infix_nil.mp h
    subst hn
    exact ⟨0, by simp [indexOf], by simp⟩
  | cons c t ih =>
    by_cases hp : startsWith (c :: t) needle = true
    · refine ⟨0, by simp [indexOf, hp], ?_⟩
      obtain ⟨r, hr⟩ := (startsWith_iff _ _).mp hp
      rw [← hr]
      simp
    · have hnp : ¬ needle <+: c :: t := fun e => hp ((startsWith_iff _ _).mpr e)
      have ht : needle <:+: t := by
        rcases List.infix_cons_iff.mp h with h1 | h1
        · exact absurd h1 hnp
        · exact h1
      obtain ⟨i, hi, hs⟩ := ih ht
      refine ⟨i + 1, by simp [indexOf, hp, hi], ?_⟩
      have e : i + 1 + needle.length = (i + needle.length) + 1 := by omega
      rw [e, List.take_succ_cons, List.drop_succ_cons]
      simp only [List.cons_append]
      rw [← hs]

/-- A replacement template without `$` is inserted as it is. -/
theorem getSubstitution_plain (matched before after : Str) (t : Str)
    (h : ∀ c ∈ t, c ≠ '$') : getSubstitution matched before after t = t := by
  induction t with
  | nil => simp [getSubstitution]
  | cons c t ih =>
    have hc : c ≠ '$' := h c (List.mem_cons_self _ _)
    have ht := ih (fun x hx => h x (List.mem_cons_of_mem _ hx))
    rw [getSubstitution]
    · rw [ht]
    all_goals
      intro t2 e
      exact absurd e hc

/-- Replacing an occurring text by a template without `$`. -/
theorem replace_of_infix (s pattern replacement : Str) (h : pattern <:+: s)
    (hd : ∀ c ∈ replacement, c ≠ '$') :
    ∃ i, replace s pattern replacement =
      s.take i ++ replacement ++ s.drop (i + pattern.length) := by
  obtain ⟨i, hi, _⟩ := indexOf_of_infix s pattern h
  refine ⟨i, ?_⟩
  simp only [replace, hi, getSubstitution_plain _ _ _ _ hd]

/-- A `$`-free text at the head of a template is copied as it is. -/
theorem getSubstitution_append_plain (matched before after : Str) (t post : Str)
    (h : ∀ c ∈ t, c ≠ '$') :
    getSubstitution matched before after (t ++ post) =
      t ++ getSubstitution matched before after post := by
  induction t with
  | nil => rfl
  | cons c t ih =>
    have hc : c ≠ '$' := h c (List.mem_cons_self _ _)
    have ht := ih (fun x hx => h x (List.mem_cons_of_mem _ hx))
    rw [List.cons_append, getSubstitution]
    · rw [ht, List.cons_append]
    all_goals
      intro t2 e
      exact absurd e hc

/-- A template that holds a `$`-free token whose first character is none of
`$`, `&`, `\x60`, `'` expands to a text that holds the token: a `$` before the
token cannot swallow its first character. -/
theorem getSubstitution_token (matched before after : Str) (token : Str) (h : Char)
    (rest : Str) (htok : token = h :: rest) (hd : ∀ c ∈ token, c ≠ '$')
    (hh : h ≠ '$' ∧ h ≠ '&' ∧ h ≠ '\x60' ∧ h ≠ '\'') (pre post : Str) :
    ∃ p q, getSubstitution matched before after (pre ++ token ++ post) = p ++ token ++ q := by
  have hplain : ∀ post, getSubstitution matched before after (token ++ post) =
      token ++ getSubstitution matched before after post :=
    fun post => getSubstitution_append_plain _ _ _ token post hd
  suffices hboth : (∃ p q, getSubstitution matched before after (pre ++ token ++ post) =
      p ++ token ++ q) ∧
      (∃ p q, getSubstitution matched before after ('$' :: (pre ++ token ++ post)) =
        p ++ token ++ q) from hboth.1
  induction pre with
  | nil =>
    refine ⟨⟨[], _, by rw [List.nil_append, hplain]⟩, ?_⟩
    refine ⟨['$'], getSubstitution matched before after post, ?_⟩
    rw [List.nil_append, htok, List.cons_append, getSubstitution]
    · rw [← List.cons_append, ← htok, hplain]
      rfl
    · intro t2 _ e
      exact hh.1 (List.cons.inj e).1
    · intro t2 _ e
      exact hh.2.1 (List.cons.inj e).1
    · intro t2 _ e
      exact hh.2.2.1 (List.cons.inj e).1
    · intro t2 _ e
      exact hh.2.2.2 (List.cons.inj e).1
  | cons c pre ih =>
    obtain ⟨⟨p1, q1, e1⟩, ⟨p2, q2, e2⟩⟩ := ih
    have hfirst : ∃ p q, getSubstitution matched before after (c :: pre ++ token ++ post) =
        p ++ token ++ q := by
      by_cases hc : c = '$'
      · subst hc
        exact ⟨p2, q2, e2⟩
      · refine ⟨c :: p1, q1, ?_⟩
        rw [List.cons_append, List.cons_append, getSubstitution]
        · rw [e1]
          rfl
        all_goals
          intro t2 e
          exact absurd e hc
    refine ⟨hfirst, ?_⟩
    obtain ⟨p3, q3, e3⟩ := hfirst
    by_cases c1 : c = '$'
    · subst c1
      refine ⟨'$' :: p1, q1, ?_⟩
      simp only [List.cons_append, getSubstitution]
      have e1b : getSubstitution matched before after ((pre.append token).append post) =
          p1 ++ token ++ q1 := e1
      rw [e1b]
    · by_cases c2 : c = '&'
      · subst c2
        refine ⟨matched ++ p1, q1, ?_⟩
        simp only [List.cons_append, getSubstitution]
        have e1b : getSubstitution matched before after ((pre.append token).append post) =
            p1 ++ token ++ q1 := e1
        rw [e1b]
        simp
      · by_cases c3 : c = '\x60'
        · subst c3
          refine ⟨before ++ p1, q1, ?_⟩
          simp only [List.cons_append, getSubstitution]
          have e1b : getSubstitution matched before after ((pre.append token).append post) =
              p1 ++ token ++ q1 := e1
          rw [e1b]
          simp
        · by_cases c4 : c = '\''
          · subst c4
            refine ⟨after ++ p1, q1, ?_⟩
            simp only [List.cons_append, getSubstitution]
            have e1b : getSubstitution matched before after ((pre.append token).append post) =
                p1 ++ token ++ q1 := e1
            rw [e1b]
            simp
          · refine ⟨'$' :: p3, q3, ?_⟩
            rw [List.cons_append, List.cons_append, getSubstitution]
            · rw [← List.cons_append, ← List.cons_append, e3]
              rfl
            · intro t2 _ e
              exact c1 (List.cons.inj e).1
            · intro t2 _ e
              exact c2 (List.cons.inj e).1
            · intro t2 _ e
              exact c3 (List.cons.inj e).1
            · intro t2 _ e
              exact c4 (List.cons.inj e).1

end JS

namespace VaultManager

theorem vaultReference_head (o : Options) (secret : Secret) :
    ∃ rest, vaultReference o secret = '\x7b' :: rest := ⟨_, rfl⟩

/-- One replacement step writes the reference token of its secret when the
matched text occurs in the content, the value occurs in the matched text and the
token holds no `$`. -/
theorem replaceSecret_token (o : Options) (content : Str) (secret : Secret)
    (hmatch : secret.matchText <:+: content) (hvalue : secret.value <:+: secret.matchText)
    (hplain : ∀ c ∈ vaultReference o secret, c ≠ '$') :
    ∃ pre post, replaceSecret o content secret = pre ++ vaultReference o secret ++ post := by
  obtain ⟨rest, htok⟩ := vaultReference_head o secret
  obtain ⟨i, hi⟩ := JS.replace_of_infix secret.matchText secret.value
    (vaultReference o secret) hvalue hplain
  obtain ⟨j, hj, _⟩ := JS.indexOf_of_infix content secret.matchText hmatch
  obtain ⟨p, q, hpq⟩ := JS.getSubstitution_token secret.matchText (content.take j)
    (content.drop (j + secret.matchText.length)) (vaultReference o secret) '\x7b' rest htok
    hplain (by decide) (secret.matchText.take i)
    (secret.matchText.drop (i + secret.value.length))
  refine ⟨content.take j ++ p, q ++ content.drop (j + secret.matchText.length), ?_⟩
  simp only [replaceSecret, hi]
  simp only [JS.replace, hj]
  rw [hpq]
  simp only [List.append_assoc]

end VaultManager

/-! ## The claims -/

/-- C1 (code evaluated at the failing input): scanning `db_pass=pass` yields one
detection, matched span `[0, 12)`, value capture `[8, 12)`; the replacement step
puts the reference where the identifier holds the same text (offset 3) and
leaves the raw value in place, instead of
`content[0..8) ++ token ++ content[12..)`. -/
theorem C1_replacement_hits_first_occurrence :
    (Sample.assignPattern.exec "db_pass=pass".toList 0).map
        (fun mr => (mr.index, mr.stop, mr.caps)) =
      some (0, 12, [some (0, 7), some (8, 12)]) ∧
    VaultManager.detectSecretsInContent Sample.registry "db_pass=pass".toList
        "config/.env".toList 2 = .ok [Sample.dbPassSecret] ∧
    Sample.dbPassSecret.value = JS.substring "db_pass=pass".toList 8 12 ∧
    VaultManager.replaceSecret Sample.options "db_pass=pass".toList Sample.dbPassSecret =
      "db_".toList ++ VaultManager.vaultReference Sample.options Sample.dbPassSecret ++
        "=pass".toList ∧
    VaultManager.replaceSecret Sample.options "db_pass=pass".toList Sample.dbPassSecret ≠
      "db_pass=pass".toList.take 8 ++
        VaultManager.vaultReference Sample.options Sample.dbPassSecret ++
        "db_pass=pass".toList.drop 12 := by
  refine ⟨by decide!, by decide!, by decide!, by decide!, by decide!⟩

/-- C2 (as stated, refuted): a storage run against a store that is reachable and
unsealed but rejects every put.  The put of the only detected secret fails, and
the file written back holds the reference token naming that secret's store path
and key. -/
theorem C2_token_written_after_failed_put :
    verifyVaultConnection Sample.rejectingStore (some false) = true ∧
      (Sample.returned (VaultManager.run Sample.options Sample.registry Sample.rejectingStore
          (some false) (Sample.fileSystem [("config/.env".toList, "API_KEY=abc123".toList)]) 2
          ["config/.env".toList] ⟨true, true, true⟩)).map
        (fun r => (r.puts.map (fun p => (VaultManager.vaultReference Sample.options p.1, p.2)),
          r.fs.readFile "config/.env".toList)) =
        some ([("\x7b\x7bvault:secret/windsurf-projects/myproj/api_key:config_.env_api\x7d\x7d".toList,
                false)],
          some ("API_KEY=\x7b\x7bvault:secret/windsurf-projects/myproj/api_key:config_.env_api\x7d\x7d".toList)) := by
  refine ⟨by decide!, by decide!⟩

/-- C2 (amended): in a storage run (scan, auto-store and replace all requested)
against a connected store, rewriting is not gated on the store writes.  The run
returns, every detected secret is put with whatever outcome, and the reference
token of a secret is written to its file whether its put succeeded or failed:
for the last detection `secret` of a file that the rewriter overwrote, whose
matched text occurs in the content when its replacement is made (the content read
from the file after the replacements of the file's earlier detections), whose
value occurs in its matched text and whose token holds no `$`, the bytes the file
holds after the run are the UTF-8 encoding of a text that contains the token,
provided no later location of the report writes that file again. -/
theorem C2_rewrite_not_gated (o : VaultManager.Options) (secretPatterns : VaultManager.Registry)
    (vault : Vault) (statusSealed : Option Bool) (fs : FileSystem) (fuel : Nat)
    (files : List Str) (report : VaultManager.ScanResults)
    (before after : List (Str × List VaultManager.Secret)) (file : Str)
    (earlier : List VaultManager.Secret) (secret : VaultManager.Secret) (content : Str)
    (hconn : verifyVaultConnection vault statusSealed = true)
    (hscan : VaultManager.scanForSecrets secretPatterns fs fuel files = some report)
    (hsplit : report.secretLocations = before ++ (file, earlier ++ [secret]) :: after)
    (hover : (VaultManager.rewriteFileStep o (before.foldl (VaultManager.rewriteFile o) fs)
      (file, earlier ++ [secret])).2 = true)
    (hread : (before.foldl (VaultManager.rewriteFile o) fs).readFile file = some content)
    (hmatch : secret.matchText <:+: earlier.foldl (VaultManager.replaceSecret o) content)
    (hvalue : secret.value <:+: secret.matchText)
    (hplain : ∀ c ∈ VaultManager.vaultReference o secret, c ≠ '$')
    (hlater : ∀ l ∈ after, fs.resolve file ≠ fs.resolve l.1 ∧
      fs.resolve file ≠ fs.resolve (VaultManager.backupPath o l.1)) :
    ∃ result pre post,
      VaultManager.run o secretPatterns vault statusSealed fs fuel files ⟨true, true, true⟩ =
        some (.returned result) ∧
      (secret, VaultManager.putSecret o vault secret) ∈ result.puts ∧
      result.fs.bytes (fs.resolve file) =
        some (Utf8.encode (pre ++ VaultManager.vaultReference o secret ++ post)) := by
  have hcount := (VaultManager.scanForSecrets_counts _ _ _ _ _ hscan).1
  have hfound : report.secretsFound > 0 := by
    rw [hcount, hsplit]
    simp only [List.map_append, List.map_cons, List.sum_append, List.sum_cons,
      List.length_append, List.length_singleton]
    omega
  have hne : report.secretsFound ≠ 0 := by omega
  have hstore : VaultManager.storeSecrets o vault report =
      (report.secretLocations.map (·.2)).flatten.map
        (fun secret => (secret, VaultManager.putSecret o vault secret)) := by
    simp only [VaultManager.storeSecrets]
    rw [if_neg hne]
  have hrun : VaultManager.run o secretPatterns vault statusSealed fs fuel files
      ⟨true, true, true⟩ = some (.returned
        { fs := VaultManager.replaceSecretsWithReferences o fs report,
          puts := VaultManager.storeSecrets o vault report, report := some report }) := by
    simp only [VaultManager.run, hconn, hscan, hfound, decide_True, Bool.and_self, if_true,
      Bool.not_true, Bool.false_eq_true, if_false]
  obtain ⟨rb, _, _⟩ := VaultManager.rewriteFiles_frame o before fs
  obtain ⟨b, hb, _, _, hwr, _⟩ := VaultManager.rewriteFileStep_overwrote o
    (before.foldl (VaultManager.rewriteFile o) fs) (file, earlier ++ [secret]) hover
  have hc : content = Utf8.decode b := by
    simp only [FileSystem.readFile, hb, Option.map_some', Option.some.injEq] at hread
    exact hread.symm
  obtain ⟨pre, post, hpp⟩ := VaultManager.replaceSecret_token o
    (earlier.foldl (VaultManager.replaceSecret o) content) secret hmatch hvalue hplain
  refine ⟨_, pre, post, hrun, ?_, ?_⟩
  · show (secret, VaultManager.putSecret o vault secret) ∈ VaultManager.storeSecrets o vault report
    rw [hstore, hsplit]
    simp
  · show (VaultManager.replaceSecretsWithReferences o fs report).bytes (fs.resolve file) = _
    simp only [VaultManager.replaceSecretsWithReferences, if_neg hne, hsplit,
      List.foldl_append, List.foldl_cons]
    obtain ⟨_, _, fa⟩ := VaultManager.rewriteFiles_frame o after
      (VaultManager.rewriteFile o (before.foldl (VaultManager.rewriteFile o) fs)
        (file, earlier ++ [secret]))
    obtain ⟨r1, _, _⟩ := VaultManager.rewriteFile_frame o
      (before.foldl (VaultManager.rewriteFile o) fs) (file, earlier ++ [secret])
    rw [fa]
    · rw [rb] at hwr
      rw [hwr, ← hc]
      simp only [List.foldl_append, List.foldl_cons, List.foldl_nil, hpp]
    · intro l hl
      rw [r1, rb]
      exact hlater l hl

/-- C2 (amended), at a file with two detections and a connected store that
rejects every put: the put of the second secret fails and its token is in the
file the run leaves. -/
theorem C2_rewrite_not_gated_witness :
    VaultManager.putSecret Sample.options Sample.rejectingStore Sample.passSecret = false ∧
      ∃ result pre post,
        VaultManager.run Sample.options Sample.registry Sample.rejectingStore (some false)
          (Sample.fileSystem [("config/.env".toList, "DB_USER=bob\nDB_PASS=xyz".toList)]) 3
          ["config/.env".toList] ⟨true, true, true⟩ = some (.returned result) ∧
        (Sample.passSecret,
          VaultManager.putSecret Sample.options Sample.rejectingStore Sample.passSecret) ∈
            result.puts ∧
        result.fs.bytes "config/.env".toList =
          some (Utf8.encode
            (pre ++ VaultManager.vaultReference Sample.options Sample.passSecret ++ post)) := by
  refine ⟨by decide!, ?_⟩
  cases h : VaultManager.scanForSecrets Sample.registry
      (Sample.fileSystem [("config/.env".toList, "DB_USER=bob\nDB_PASS=xyz".toList)]) 3
      ["config/.env".toList] with
  | none => exact absurd h (by decide!)
  | some report =>
    have hloc : report.secretLocations =
        [] ++ ("config/.env".toList, [Sample.userSecret] ++ [Sample.passSecret]) :: [] := by
      have h2 : (VaultManager.scanForSecrets Sample.registry
          (Sample.fileSystem [("config/.env".toList, "DB_USER=bob\nDB_PASS=xyz".toList)]) 3
          ["config/.env".toList]).map (·.secretLocations) =
          some [("config/.env".toList, [Sample.userSecret, Sample.passSecret])] := by decide!
      rw [h] at h2
      simp only [Option.map_some', Option.some.injEq] at h2
      exact h2
    exact C2_rewrite_not_gated Sample.options Sample.registry Sample.rejectingStore (some false)
      (Sample.fileSystem [("config/.env".toList, "DB_USER=bob\nDB_PASS=xyz".toList)]) 3
      ["config/.env".toList] report [] [] "config/.env".toList [Sample.userSecret]
      Sample.passSecret "DB_USER=bob\nDB_PASS=xyz".toList
      (by decide!) h hloc (by decide!) (by decide!) (by decide!) (by decide!) (by decide!)
      (fun l hl => absurd hl (List.not_mem_nil l))

/-- C3 (as stated, refuted): `a/.env` and `b/.env` share the base name `.env`.
After the rewrite run `a/.env` has been overwritten (it held `API_KEY=abc123`),
but the backup `.windsurf/backups/.env.bak` holds the former bytes of `b/.env`.
And a file whose bytes are not valid UTF-8 (`API_KEY=abc123`, a line feed and the
byte `FF`) is overwritten while its backup ends in `EF BF BD`: the backup is
written from the decoded text, not from the bytes. -/
theorem C3_backup_overwritten_by_namesake :
    (VaultManager.scanForSecrets Sample.registry
        (Sample.fileSystem [("a/.env".toList, "API_KEY=abc123".toList),
          ("b/.env".toList, "API_KEY=xyz789".toList)]) 2
        ["a/.env".toList, "b/.env".toList]).map
      (fun report =>
        let after := VaultManager.replaceSecretsWithReferences Sample.options
          (Sample.fileSystem [("a/.env".toList, "API_KEY=abc123".toList),
            ("b/.env".toList, "API_KEY=xyz789".toList)]) report
        (after.readFile "a/.env".toList,
         VaultManager.backupPath Sample.options "a/.env".toList,
         after.readFile (VaultManager.backupPath Sample.options "a/.env".toList))) =
      some
        (some "API_KEY=\x7b\x7bvault:secret/windsurf-projects/myproj/api_key:a_.env_api\x7d\x7d".toList,
         ".windsurf/backups/.env.bak".toList,
         some "API_KEY=xyz789".toList) ∧
    (VaultManager.scanForSecrets Sample.registry
        (Sample.byteFileSystem [("config/.env".toList,
          Utf8.encode "API_KEY=abc123".toList ++ [0x0A, 0xFF])]) 2
        ["config/.env".toList]).map
      (fun report =>
        let after := VaultManager.replaceSecretsWithReferences Sample.options
          (Sample.byteFileSystem [("config/.env".toList,
            Utf8.encode "API_KEY=abc123".toList ++ [0x0A, 0xFF])]) report
        (after.readFile "config/.env".toList,
         after.bytes (VaultManager.backupPath Sample.options "config/.env".toList))) =
      some
        (some ("API_KEY=\x7b\x7bvault:secret/windsurf-projects/myproj/api_key:config_.env_api\x7d\x7d".toList
            ++ ['\n', Char.ofNat 0xFFFD]),
         some (Utf8.encode "API_KEY=abc123".toList ++ [0x0A, 0xEF, 0xBF, 0xBD])) := by
  refine ⟨by decide!, by decide!⟩

/-- C3 (amended): for every scan report whose files have pairwise different
backup files (no shared base name) and none of whose files is itself the backup
file of a reported file, and every initial file-system state: after
`replaceSecretsWithReferences` finishes, every file it overwrote that was valid
UTF-8 at that moment has at `<backupDir>/<base name>.bak` a backup whose bytes
are identical to the bytes the file had immediately before it was overwritten. -/
theorem C3_backup_fidelity (o : VaultManager.Options) (fs : FileSystem)
    (report : VaultManager.ScanResults)
    (before after : List (Str × List VaultManager.Secret))
    (location : Str × List VaultManager.Secret)
    (hfound : report.secretsFound ≠ 0)
    (hsplit : report.secretLocations = before ++ location :: after)
    (hbackups : (report.secretLocations.map
      (fun l => fs.resolve (VaultManager.backupPath o l.1))).Nodup)
    (hdisjoint : ∀ l ∈ report.secretLocations, ∀ l2 ∈ report.secretLocations,
      fs.resolve l.1 ≠ fs.resolve (VaultManager.backupPath o l2.1))
    (hover : (VaultManager.rewriteFileStep o
      (before.foldl (VaultManager.rewriteFile o) fs) location).2 = true)
    (hutf8 : ∀ b, (before.foldl (VaultManager.rewriteFile o) fs).bytes
      (fs.resolve location.1) = some b → Utf8.encode (Utf8.decode b) = b) :
    ∃ b, (before.foldl (VaultManager.rewriteFile o) fs).bytes (fs.resolve location.1) =
        some b ∧
      (VaultManager.replaceSecretsWithReferences o fs report).bytes
        (fs.resolve (VaultManager.backupPath o location.1)) = some b := by
  have hmem : location ∈ report.secretLocations := by
    rw [hsplit]
    simp
  obtain ⟨rb, _, _⟩ := VaultManager.rewriteFiles_frame o before fs
  obtain ⟨b, hb, _, _, _, hbk⟩ := VaultManager.rewriteFileStep_overwrote o
    (before.foldl (VaultManager.rewriteFile o) fs) location hover
  rw [rb] at hb hbk
  refine ⟨b, hb, ?_⟩
  have hbk2 := hbk (hdisjoint location hmem location hmem)
  rw [hutf8 b hb] at hbk2
  simp only [VaultManager.replaceSecretsWithReferences, if_neg hfound, hsplit,
    List.foldl_append, List.foldl_cons]
  obtain ⟨_, _, fa⟩ := VaultManager.rewriteFiles_frame o after
    (VaultManager.rewriteFile o (before.foldl (VaultManager.rewriteFile o) fs) location)
  obtain ⟨r1, _, _⟩ := VaultManager.rewriteFile_frame o
    (before.foldl (VaultManager.rewriteFile o) fs) location
  rw [fa, hbk2]
  intro l hl
  have hl2 : l ∈ report.secretLocations := by
    rw [hsplit]
    simp [hl]
  rw [r1, rb]
  refine ⟨fun e => hdisjoint l hl2 location hmem e.symm, fun e => ?_⟩
  rw [hsplit, List.map_append, List.map_cons] at hbackups
  have hnd := (List.nodup_append.mp hbackups).2.1
  have := (List.nodup_cons.mp hnd).1
  exact this (List.mem_map.mpr ⟨l, hl, e.symm⟩)

/-- C3 (amended), at the report of the scan of three files with different base
names, for the second of them: when its turn comes `app/settings.json` holds the
bytes of `db_pass=pass`, and after the run the backup
`.windsurf/backups/settings.json.bak` holds these bytes. -/
theorem C3_backup_fidelity_witness :
    VaultManager.scanForSecrets Sample.registry Sample.threeFiles 2
        ["config/.env".toList, "app/settings.json".toList, "lib/keys.js".toList] =
        some Sample.threeFilesReport ∧
      ([("config/.env".toList, [Sample.dbPassSecret])].foldl
          (VaultManager.rewriteFile Sample.options) Sample.threeFiles).bytes
          (Sample.threeFiles.resolve "app/settings.json".toList) =
        some (Utf8.encode "db_pass=pass".toList) ∧
      (VaultManager.replaceSecretsWithReferences Sample.options Sample.threeFiles
          Sample.threeFilesReport).bytes
        (Sample.threeFiles.resolve
          (VaultManager.backupPath Sample.options "app/settings.json".toList)) =
        some (Utf8.encode "db_pass=pass".toList) := by
  have hbytes : ([("config/.env".toList, [Sample.dbPassSecret])].foldl
      (VaultManager.rewriteFile Sample.options) Sample.threeFiles).bytes
      (Sample.threeFiles.resolve "app/settings.json".toList) =
      some (Utf8.encode "db_pass=pass".toList) := by decide!
  obtain ⟨b, hb, hbk⟩ := C3_backup_fidelity Sample.options Sample.threeFiles
    Sample.threeFilesReport
    [("config/.env".toList, [Sample.dbPassSecret])]
    [("lib/keys.js".toList, [Sample.keysSecret])]
    ("app/settings.json".toList, [Sample.settingsSecret])
    (by decide) rfl (by decide!) (by decide!) (by decide!)
    (fun b hb => by
      rw [hbytes] at hb
      cases hb
      decide!)
  rw [hbytes] at hb
  cases hb
  exact ⟨by decide!, hbytes, hbk⟩

/-- C4 (as stated, refuted): for the identifier `monkey`, which has none of the
suffixes `_key`, `_secret`, `_token`, `_password`, the key of the code ends in
`mon` while the specified reference leaves the identifier unchanged; for
`API-KEY` the code strips `-KEY`. -/
theorem C4_keyword_stripped_without_underscore :
    VaultManager.generateSecretKey "config/app.js".toList "monkey".toList =
        "config_app.js_mon".toList ∧
      VaultManager.generateSecretKeyClaimed "config/app.js".toList "monkey".toList =
        "config_app.js_monkey".toList ∧
      VaultManager.generateSecretKey "config/app.js".toList "API-KEY".toList =
        "config_app.js_api".toList ∧
      VaultManager.generateSecretKeyClaimed "config/app.js".toList "API-KEY".toList =
        "config_app.js_api-key".toList := by
  refine ⟨by decide!, by decide!, by decide!, by decide!⟩

/-- C4 (amended): for every file path and identifier,
`generateSecretKey(filePath, identifier) = dir ++ "_" ++ file ++ "_" ++ c`, where
`dir` is the name of the immediate parent directory, `file` the base name, and
`c` the identifier with a trailing `key`, `secret`, `token` or `password`
(case-insensitive) stripped together with the single `_` or `-` directly before
it when there is one, and left unchanged otherwise, then every UTF-16 code unit
outside `[a-zA-Z0-9_-]` replaced by `_` (two `_` for a character outside the
Basic Multilingual Plane), then lower-cased. -/
theorem C4_generateSecretKey_refines (filePath identifier : Str) :
    VaultManager.generateSecretKey filePath identifier =
      Path.basename (Path.dirname filePath) ++ "_".toList ++ Path.basename filePath ++
        "_".toList ++
        (((VaultManager.stripKeyword identifier).map
            (fun c => if VaultManager.keyChar c then [c]
              else List.replicate (if c.toNat < 0x10000 then 1 else 2) '_')).flatten.map
          Char.toLower) := by
  simp only [VaultManager.generateSecretKey, VaultManager.removeFirstMatch_suffixPattern,
    VaultManager.stripRec_eq_stripKeyword, VaultManager.replaceUnsafeChars, JS.toLowerCase,
    VaultManager.codeUnits]
  simp

/-- C5 (as stated, refuted): the empty store path contains no `:` and no `}`, the
key `k` contains no `}`, yet decoding `{{vault::k}}` yields no tuple at all. -/
theorem C5_empty_path_not_decoded :
    (∀ c ∈ ([] : Str), c ≠ ':' ∧ c ≠ '}') ∧ (∀ c ∈ "k".toList, c ≠ '}') ∧
      VaultReferenceValidator.referenceLoop (fun _ => true)
        (VaultManager.referenceToken [] "k".toList) 2 0 = some [] := by
  refine ⟨by simp, by decide, by decide⟩

/-- C5 (amended): for every non-empty store path containing no `:` and every
non-empty key containing no `}`, decoding the encoded text
`{{vault:<storePath>:<key>}}` with the reference pattern of the validator yields
exactly one tuple, whose store path and key are the encoded pair. -/
theorem C5_decode_encode (vault : Vault) (storePath key : Str) (fuel : Nat)
    (hp : storePath ≠ []) (hpc : ∀ c ∈ storePath, c ≠ ':')
    (hk : key ≠ []) (hkc : ∀ c ∈ key, c ≠ '}') (hfuel : 2 ≤ fuel) :
    (VaultReferenceValidator.referenceLoop vault
        (VaultManager.referenceToken storePath key) fuel 0).map
      (List.map (fun r => (r.path, r.key))) = some [(storePath, key)] := by
  rw [VaultReferenceValidator.referenceLoop_eq,
    VaultReferenceValidator.tokenOccurrences_token storePath key fuel hp hpc hk hkc hfuel]
  rfl

/-- C5 (amended), at the store path `secret/app` and the key `db_password`. -/
theorem C5_decode_encode_witness :
    (VaultReferenceValidator.referenceLoop (fun _ => true)
        (VaultManager.referenceToken "secret/app".toList "db_password".toList) 2 0).map
      (List.map (fun r => (r.path, r.key))) =
        some [("secret/app".toList, "db_password".toList)] :=
  C5_decode_encode (fun _ => true) "secret/app".toList "db_password".toList 2
    (by decide) (by decide) (by decide) (by decide) (by decide)

/-- C6 (as stated, refuted): the store is connected and holds key `K` at path
`a:b` (that lookup succeeds) and the only file contains `{{vault:a:b:K}}`, yet
the report counts one invalid reference and the run fails: the token is decoded
as path `a`, key `b:K`.  And with a store that cannot be reached the run fails
although there is no token at all. -/
theorem C6_present_key_reported_invalid :
    verifyVaultConnection (Sample.storeWith ["vault kv get a:b -field=K".toList])
        (some false) = true ∧
      VaultReferenceValidator.lookup
        (Sample.storeWith ["vault kv get a:b -field=K".toList])
        ("a:b".toList, "K".toList) = true ∧
      (VaultReferenceValidator.validateAllReferences
          (Sample.storeWith ["vault kv get a:b -field=K".toList])
          (Sample.fileSystem [("app.env".toList,
            "API_KEY=".toList ++ VaultManager.referenceToken "a:b".toList "K".toList)])
          40 ["app.env".toList]).map (fun r => (r.validReferences, r.invalidReferences)) =
        some (0, 1) ∧
      VaultReferenceValidator.run
          (Sample.storeWith ["vault kv get a:b -field=K".toList]) (some false)
          (Sample.fileSystem [("app.env".toList,
            "API_KEY=".toList ++ VaultManager.referenceToken "a:b".toList "K".toList)])
          40 ["app.env".toList] = some 1 ∧
      VaultReferenceValidator.allTokens (Sample.fileSystem []) 40 [] = [] ∧
      VaultReferenceValidator.run (fun _ => false) none (Sample.fileSystem []) 40 [] =
        some 1 := by
  refine ⟨by decide!, by decide!, by decide!, by decide!, by decide!, by decide!⟩

/-- C6 (amended): for every list of files and every store state,
`validateAllReferences` returns `validReferences` equal to the number of token
occurrences (matches of the reference pattern, over all readable files) whose
store lookup succeeds and `invalidReferences` equal to the number whose lookup
fails; the run fails (exit code 1) exactly when the connection to the store is
not verified or some decoded token does not resolve, and ends with exit code 0
exactly when the connection is verified and every decoded token resolves; in
particular, for a non-empty store path `P` containing no `:` and a non-empty key
`K` containing no `}` (such as `missing`), a single file that contains
`{{vault:P:K}}`, with no `{{vault:` in the text before or after it, gives one
valid and zero invalid references when `K` is present at `P` and zero valid and
exactly one invalid when it is not. -/
theorem C6_validator_report (vault : Vault) (statusSealed : Option Bool) (fs : FileSystem)
    (fuel : Nat) (files : List Str)
    (hfuel : ∀ f ∈ files, ∀ c, fs.readFile f = some c → c.length < fuel) :
    ∃ report, VaultReferenceValidator.validateAllReferences vault fs fuel files = some report ∧
      report.validReferences =
        (VaultReferenceValidator.allTokens fs fuel files).countP
          (VaultReferenceValidator.lookup vault) ∧
      report.invalidReferences =
        (VaultReferenceValidator.allTokens fs fuel files).countP
          (fun t => !VaultReferenceValidator.lookup vault t) ∧
      (VaultReferenceValidator.run vault statusSealed fs fuel files = some 1 ↔
        (verifyVaultConnection vault statusSealed = false ∨
          ∃ t ∈ VaultReferenceValidator.allTokens fs fuel files,
            VaultReferenceValidator.lookup vault t = false)) ∧
      (VaultReferenceValidator.run vault statusSealed fs fuel files = some 0 ↔
        (verifyVaultConnection vault statusSealed = true ∧
          ∀ t ∈ VaultReferenceValidator.allTokens fs fuel files,
            VaultReferenceValidator.lookup vault t = true)) ∧
      (∀ file pre P K post, files = [file] →
        fs.readFile file = some (pre ++ VaultManager.referenceToken P K ++ post) →
        ¬ "\x7b\x7bvault:".toList <:+: pre → ¬ "\x7b\x7bvault:".toList <:+: post →
        P ≠ [] → (∀ c ∈ P, c ≠ ':') → K ≠ [] → (∀ c ∈ K, c ≠ '}') →
        (VaultReferenceValidator.lookup vault (P, K) = true →
          report.validReferences = 1 ∧ report.invalidReferences = 0) ∧
        (VaultReferenceValidator.lookup vault (P, K) = false →
          report.validReferences = 0 ∧ report.invalidReferences = 1)) := by
  obtain ⟨rep, hrep, hv, hi⟩ := VaultReferenceValidator.validateFiles_counts vault fs fuel files
    { totalFiles := files.length, filesWithReferences := 0, validReferences := 0,
      invalidReferences := 0, fileResults := [] } hfuel
  simp only [Nat.zero_add] at hv hi
  have hall : VaultReferenceValidator.validateAllReferences vault fs fuel files = some rep :=
    hrep
  have hsome : (∃ t ∈ VaultReferenceValidator.allTokens fs fuel files,
      VaultReferenceValidator.lookup vault t = false) ↔ rep.invalidReferences > 0 := by
    rw [hi]
    constructor
    · rintro ⟨t, ht, hb⟩
      exact List.countP_pos_iff.mpr ⟨t, ht, by simpa using hb⟩
    · intro hpos
      obtain ⟨t, ht, hb⟩ := List.countP_pos_iff.mp hpos
      exact ⟨t, ht, by simpa using hb⟩
  have hevery : (∀ t ∈ VaultReferenceValidator.allTokens fs fuel files,
      VaultReferenceValidator.lookup vault t = true) ↔ ¬ rep.invalidReferences > 0 := by
    rw [← hsome]
    constructor
    · rintro hall2 ⟨t, ht, hb⟩
      rw [hall2 t ht] at hb
      cases hb
    · intro hno t ht
      cases hb : VaultReferenceValidator.lookup vault t with
      | true => rfl
      | false => exact absurd ⟨t, ht, hb⟩ hno
  refine ⟨rep, hrep, hv, hi, ?_, ?_, ?_⟩
  · rw [hsome]
    cases hc : verifyVaultConnection vault statusSealed with
    | false => simp [VaultReferenceValidator.run, hc]
    | true =>
      simp only [VaultReferenceValidator.run, hc, hall, Bool.not_true, Bool.false_eq_true,
        if_false, Option.map_some', false_or]
      by_cases hpos : rep.invalidReferences > 0
      · simp [hpos]
      · simp [hpos]
  · rw [hevery]
    cases hc : verifyVaultConnection vault statusSealed with
    | false => simp [VaultReferenceValidator.run, hc]
    | true =>
      simp only [VaultReferenceValidator.run, hc, hall, Bool.not_true, Bool.false_eq_true,
        if_false, Option.map_some', true_and]
      by_cases hpos : rep.invalidReferences > 0
      · simp [hpos]
      · simp [hpos]
  · intro file pre P K post hfiles hread hpre hpost hP hPc hK hKc
    have hlen : (pre ++ VaultManager.referenceToken P K ++ post).length < fuel :=
      hfuel file (by simp [hfiles]) _ hread
    have htok : VaultReferenceValidator.allTokens fs fuel files = [(P, K)] := by
      simp only [VaultReferenceValidator.allTokens, hfiles, List.filterMap_cons, hread,
        List.filterMap_nil, List.map_cons, List.map_nil,
        VaultReferenceValidator.tokenOccurrences_containing pre P K post fuel hP hPc hK hKc
          hpre hpost (by simp [VaultManager.referenceToken] at hlen; omega)]
      rfl
    rw [hv, hi, htok]
    constructor
    · intro hl
      simp [hl]
    · intro hl
      simp [hl]

/-- C6 (amended), at a connected store holding key `K` at path `secret/app` and a
single file with the line `API_KEY={{vault:secret/app:K}}` followed by a comment
line: one valid reference, none invalid. -/
theorem C6_validator_report_witness :
    ∃ report, VaultReferenceValidator.validateAllReferences
        (Sample.storeWith ["vault kv get secret/app -field=K".toList])
        (Sample.fileSystem [("app.env".toList,
          "API_KEY=".toList ++ VaultManager.referenceToken "secret/app".toList "K".toList ++
            "\n# end".toList)])
        60 ["app.env".toList] = some report ∧
      report.validReferences = 1 ∧ report.invalidReferences = 0 := by
  obtain ⟨report, h1, _, _, _, _, h6⟩ := C6_validator_report
    (Sample.storeWith ["vault kv get secret/app -field=K".toList]) (some false)
    (Sample.fileSystem [("app.env".toList,
      "API_KEY=".toList ++ VaultManager.referenceToken "secret/app".toList "K".toList ++
        "\n# end".toList)])
    60 ["app.env".toList]
    (by
      intro f hf c hc
      simp only [List.mem_singleton] at hf
      subst hf
      have hread : (Sample.fileSystem [("app.env".toList,
          "API_KEY=".toList ++ VaultManager.referenceToken "secret/app".toList "K".toList ++
            "\n# end".toList)]).readFile "app.env".toList =
          some ("API_KEY=".toList ++
            VaultManager.referenceToken "secret/app".toList "K".toList ++
            "\n# end".toList) := by decide!
      rw [hread] at hc
      cases hc
      decide)
  exact ⟨report, h1,
    (h6 "app.env".toList "API_KEY=".toList "secret/app".toList "K".toList "\n# end".toList
      rfl (by decide!) (by decide!) (by decide!) (by decide) (by decide) (by decide)
      (by decide)).1 (by decide!)⟩

/-- C7 (as stated, refuted): the store path `a:b` contains a `:`, yet decoding
`{{vault:a:b:c}}` yields a tuple (store path `a`, key `b:c`); the key `c}`
contains a `}`, yet decoding `{{vault:p:c}}}` yields a tuple (store path `p`,
key `c`). -/
theorem C7_malformed_token_decoded :
    ':' ∈ "a:b".toList ∧
      VaultReferenceValidator.referenceLoop (fun _ => true)
        (VaultManager.referenceToken "a:b".toList "c".toList) 2 0 =
        some [⟨"a".toList, "b:c".toList, true⟩] ∧
    '}' ∈ "c\x7d".toList ∧
      VaultReferenceValidator.referenceLoop (fun _ => true)
        (VaultManager.referenceToken "p".toList "c\x7d".toList) 2 0 =
        some [⟨"p".toList, "c".toList, true⟩] := by
  refine ⟨by decide, by decide!, by decide, by decide!⟩

/-- C7 (amended): for every store path `p` and key `k`, if `p` contains a `:` or
`k` contains a `}`, decoding `{{vault:p:k}}` raises no error (the loop finishes
with a list) and never yields the pair `(p, k)`: every tuple it yields has a
store path free of `:` and a key free of `}`. -/
theorem C7_decoder_rejection (vault : Vault) (p k : Str) (fuel : Nat)
    (h : ':' ∈ p ∨ '}' ∈ k) (hfuel : (VaultManager.referenceToken p k).length < fuel) :
    ∃ refs, VaultReferenceValidator.referenceLoop vault
        (VaultManager.referenceToken p k) fuel 0 = some refs ∧
      ∀ r ∈ refs, (∀ c ∈ r.path, c ≠ ':') ∧ (∀ c ∈ r.key, c ≠ '}') ∧
        ¬(r.path = p ∧ r.key = k) := by
  obtain ⟨l, hl⟩ := VaultReferenceValidator.tokenOccurrences_total
    (VaultManager.referenceToken p k) fuel 0 (by omega) (by omega)
  refine ⟨l.map (VaultReferenceValidator.toReference vault), ?_, ?_⟩
  · rw [VaultReferenceValidator.referenceLoop_eq, hl]
    rfl
  · intro r hr
    obtain ⟨t, ht, rfl⟩ := List.mem_map.mp hr
    obtain ⟨_, h1, _, h2⟩ :=
      VaultReferenceValidator.tokenOccurrences_wellFormed _ fuel 0 l hl t ht
    refine ⟨h1, h2, ?_⟩
    rintro ⟨e1, e2⟩
    rcases h with h | h
    · exact h1 ':' (by simpa [VaultReferenceValidator.toReference, ← e1] using h) rfl
    · exact h2 '}' (by simpa [VaultReferenceValidator.toReference, ← e2] using h) rfl

/-- C7 (amended), at the store path `a:b` and the key `c`. -/
theorem C7_decoder_rejection_witness :
    ∃ refs, VaultReferenceValidator.referenceLoop (fun _ => true)
        (VaultManager.referenceToken "a:b".toList "c".toList) 16 0 = some refs ∧
      ∀ r ∈ refs, (∀ c ∈ r.path, c ≠ ':') ∧ (∀ c ∈ r.key, c ≠ '}') ∧
        ¬(r.path = "a:b".toList ∧ r.key = "c".toList) :=
  C7_decoder_rejection (fun _ => true) "a:b".toList "c".toList 16
    (Or.inl (by decide)) (by decide)

/-- C8 (code evaluated at the failing input): with a secret type named
`constructor` the report counts one secret and lists it under its file, but
`secretsByType` stays empty: `secretsFound = 1`, per-file sum 1, per-type sum 0. -/
theorem C8_type_named_constructor_breaks_count :
    (VaultManager.scanForSecrets
        [("constructor".toList,
          { patterns := [some Sample.assignPattern.exec], vault_path := none })]
        (Sample.fileSystem [("config/.env".toList, "API_KEY=abc123".toList)]) 2
        ["config/.env".toList]).map
      (fun r => (r.secretsFound, (r.secretLocations.map (·.2.length)).sum,
        (r.secretsByType.map (·.2.length)).sum)) = some (1, 1, 0) := by
  decide!

/-- C9 (as stated, refuted): the derived key of the end-to-end example is not
`config__env_api`; the dot of the file name `.env` is kept. -/
theorem C9_key_keeps_dot :
    VaultManager.generateSecretKey "config/.env".toList "API_KEY".toList ≠
        "config__env_api".toList ∧
      VaultManager.generateSecretKey "config/.env".toList "API_KEY".toList =
        "config_.env_api".toList := by
  refine ⟨by decide!, by decide!⟩

/-- C9 (amended): scanning the content `API_KEY=abc123` of the file `config/.env`
with a pattern that captures identifier `API_KEY` and value `abc123` (and matches
nothing after that) yields exactly one detection, and its derived key
(`generateSecretKey("config/.env", "API_KEY")`) is the string `config_.env_api`. -/
theorem C9_end_to_end_key (pattern : RegExp) (vaultPath : Option Str) (mr : MatchResult)
    (fuel : Nat) (hfuel : 2 ≤ fuel)
    (hmatch : pattern "API_KEY=abc123".toList 0 = some mr)
    (hid : mr.get "API_KEY=abc123".toList 1 = some "API_KEY".toList)
    (hval : mr.get "API_KEY=abc123".toList 2 = some "abc123".toList)
    (hlast : pattern "API_KEY=abc123".toList mr.stop = none) :
    ∃ d, VaultManager.detectSecretsInContent
        [("api_key".toList, { patterns := [some pattern], vault_path := vaultPath })]
        "API_KEY=abc123".toList "config/.env".toList fuel = .ok [d] ∧
      d.key = VaultManager.generateSecretKey "config/.env".toList "API_KEY".toList ∧
      d.key = "config_.env_api".toList ∧ d.value = "abc123".toList := by
  obtain ⟨f, rfl⟩ : ∃ f, fuel = f + 1 + 1 := ⟨fuel - 2, by omega⟩
  have hk : VaultManager.generateSecretKey "config/.env".toList "API_KEY".toList =
      "config_.env_api".toList := by decide!
  have hd : VaultManager.detectSecretsInContent
      [("api_key".toList, { patterns := [some pattern], vault_path := vaultPath })]
      "API_KEY=abc123".toList "config/.env".toList (f + 1 + 1) =
      .ok [VaultManager.mkSecret "api_key".toList
        { patterns := [some pattern], vault_path := vaultPath } "config/.env".toList
        "API_KEY=abc123".toList mr] := by
    simp only [VaultManager.detectSecretsInContent, VaultManager.detectWithPatterns,
      VaultManager.matchLoop, hmatch, hlast]
    rfl
  refine ⟨_, hd, ?_, ?_, ?_⟩
  · simp only [VaultManager.mkSecret, hid]
    rfl
  · simp only [VaultManager.mkSecret, hid]
    exact hk
  · simp only [VaultManager.mkSecret, hval]
    rfl

/-- C9 (amended), with the pattern `(\w+)=(\w+)`. -/
theorem C9_end_to_end_key_witness :
    ∃ d, VaultManager.detectSecretsInContent
        [("api_key".toList,
          { patterns := [some Sample.assignPattern.exec], vault_path := none })]
        "API_KEY=abc123".toList "config/.env".toList 2 = .ok [d] ∧
      d.key = VaultManager.generateSecretKey "config/.env".toList "API_KEY".toList ∧
      d.key = "config_.env_api".toList ∧ d.value = "abc123".toList :=
  C9_end_to_end_key Sample.assignPattern.exec none ⟨0, 14, [some (0, 7), some (8, 14)]⟩ 2
    (by decide) (by decide!) (by decide!) (by decide!) (by decide!)

/-- C10 (code evaluated at the failing input): on the content `DB_PASS=` the
pattern `(\w+)=(\w*)` matches `DB_PASS=` and its value group captures the empty
string, yet the raw value of the detection is the entire matched text
`DB_PASS=`. -/
theorem C10_empty_value_falls_back_to_match :
    (Sample.assignPatternOptional.exec "DB_PASS=".toList 0).map
        (fun mr => (mr.get "DB_PASS=".toList 0, mr.get "DB_PASS=".toList 2)) =
      some (some "DB_PASS=".toList, some []) ∧
    VaultManager.detectSecretsInContent
        [("api_key".toList,
          { patterns := [some Sample.assignPatternOptional.exec], vault_path := none })]
        "DB_PASS=".toList "config/.env".toList 2 =
      .ok [{ type := "api_key".toList, key := "config_.env_db_pass".toList, value := "DB_PASS=".toList,
             path := "config/.env".toList, vaultPath := "api_key".toList,
             matchText := "DB_PASS=".toList, lineNumber := 1 }] := by
  refine ⟨by decide!, by decide!⟩

/-- C11: for every file content, the loop of the validator finishes, and for every
tuple (matched text, store path, key) that its reference pattern extracts from
the content, re-encoding the pair as `{{vault:<storePath>:<key>}}` reproduces the
matched text character for character; the references the validator records are
those of the extracted tuples. -/
theorem C11_encode_decode (vault : Vault) (content : Str) (fuel : Nat)
    (hfuel : content.length < fuel) :
    ∃ tuples, VaultReferenceValidator.extractedTuples content fuel 0 = some tuples ∧
      VaultReferenceValidator.referenceLoop vault content fuel 0 =
        some (tuples.map
          (fun t => VaultReferenceValidator.toReference vault (t.2.1, t.2.2))) ∧
      ∀ t ∈ tuples, VaultManager.referenceToken t.2.1 t.2.2 = t.1 := by
  obtain ⟨l, hl⟩ := VaultReferenceValidator.tokenOccurrences_total content fuel 0
    (by omega) (by omega)
  rw [VaultReferenceValidator.tokenOccurrences_eq] at hl
  cases ht : VaultReferenceValidator.extractedTuples content fuel 0 with
  | none => simp [ht] at hl
  | some tuples =>
    refine ⟨tuples, rfl, ?_, VaultReferenceValidator.extractedTuples_encode content fuel 0 tuples ht⟩
    rw [VaultReferenceValidator.referenceLoop_eq, VaultReferenceValidator.tokenOccurrences_eq, ht]
    simp [List.map_map, Function.comp_def]

/-- C11, at a text with two tokens, the second one followed by a third brace. -/
theorem C11_encode_decode_witness :
    ∃ tuples, VaultReferenceValidator.extractedTuples
        "a=\x7b\x7bvault:p/q:k\x7d\x7d b=\x7b\x7bvault:a:b:c\x7d\x7d\x7d".toList 40 0 =
        some tuples ∧
      VaultReferenceValidator.referenceLoop (fun _ => true)
        "a=\x7b\x7bvault:p/q:k\x7d\x7d b=\x7b\x7bvault:a:b:c\x7d\x7d\x7d".toList 40 0 =
        some (tuples.map
          (fun t => VaultReferenceValidator.toReference (fun _ => true) (t.2.1, t.2.2))) ∧
      ∀ t ∈ tuples, VaultManager.referenceToken t.2.1 t.2.2 = t.1 :=
  C11_encode_decode (fun _ => true)
    "a=\x7b\x7bvault:p/q:k\x7d\x7d b=\x7b\x7bvault:a:b:c\x7d\x7d\x7d".toList 40 (by decide)

/-- C12 (as stated, refuted): with the project name `my:proj` the detection of
`API_KEY=abc123` in `config/.env` is stored under the path
`secret/windsurf-projects/my:proj/api_key` and the key `config_.env_api`, but
decoding its reference token yields the path `secret/windsurf-projects/my` and
the key `proj/api_key:config_.env_api`; for the file `config/x}y.env` the
derived key is `config_x}y.env_api` and the token is not decoded at all. -/
theorem C12_colon_in_project_name_misdecoded :
    VaultManager.detectSecretsInContent Sample.registry "API_KEY=abc123".toList
        "config/.env".toList 2 = .ok [Sample.apiKeySecret] ∧
      VaultManager.storePath Sample.colonOptions Sample.apiKeySecret =
        "secret/windsurf-projects/my:proj/api_key".toList ∧
      (VaultReferenceValidator.referenceLoop (fun _ => true)
          (VaultManager.vaultReference Sample.colonOptions Sample.apiKeySecret) 80 0).map
        (List.map (fun r => (r.path, r.key))) =
        some [("secret/windsurf-projects/my".toList,
          "proj/api_key:config_.env_api".toList)] ∧
      VaultManager.generateSecretKey "config/x\x7dy.env".toList "API_KEY".toList =
        "config_x\x7dy.env_api".toList ∧
      VaultReferenceValidator.referenceLoop (fun _ => true)
        (VaultManager.referenceToken "secret/windsurf-projects/myproj/api_key".toList
          "config_x\x7dy.env_api".toList) 80 0 = some [] := by
  refine ⟨by decide!, by decide!, by decide!, by decide!, by decide!⟩

/-- C12 (amended): when the mount path, base path, project name and the target
subpaths of the registry contain no `:` and the directory name and base name of
the file contain no `}`, then for every detection produced by the scanner,
decoding the reference token that the rewriter builds for it with the reference
pattern of the validator yields exactly one tuple: the store path and key under
which `storeSecrets` puts that detection's value. -/
theorem C12_writer_validator_agree (o : VaultManager.Options) (vault : Vault)
    (secretPatterns : VaultManager.Registry) (content filePath : Str) (scanFuel fuel : Nat)
    (detections : List VaultManager.Secret)
    (hscan : VaultManager.detectSecretsInContent secretPatterns content filePath scanFuel =
      .ok detections)
    (hmount : ∀ c ∈ o.mountPath, c ≠ ':') (hbase : ∀ c ∈ o.basePath, c ≠ ':')
    (hproj : ∀ c ∈ o.projectName, c ≠ ':')
    (hsub : ∀ e ∈ secretPatterns, ∀ c ∈ JS.orElseStr e.2.vault_path e.1, c ≠ ':')
    (hdir : ∀ c ∈ Path.basename (Path.dirname filePath), c ≠ '}')
    (hfile : ∀ c ∈ Path.basename filePath, c ≠ '}')
    (hfuel : 2 ≤ fuel) :
    ∀ secret ∈ detections,
      (VaultReferenceValidator.referenceLoop vault
          (VaultManager.vaultReference o secret) fuel 0).map
        (List.map (fun r => (r.path, r.key))) =
        some [(VaultManager.storePath o secret, secret.key)] ∧
      VaultManager.putSecret o vault secret =
        executeVaultCommand vault ["kv".toList, "put".toList,
          VaultManager.storePath o secret, secret.key ++ '=' :: secret.value] := by
  intro secret hs
  obtain ⟨e, he, mr, hmk⟩ :=
    VaultManager.detectSecretsInContent_mk secretPatterns content filePath scanFuel
      detections hscan secret hs
  have hkey : secret.key =
      VaultManager.generateSecretKey filePath (JS.orElseStr (mr.get content 1) e.1) := by
    rw [hmk]
    rfl
  have hvp : secret.vaultPath = JS.orElseStr e.2.vault_path e.1 := by
    rw [hmk]
    rfl
  obtain ⟨hp1, hp2⟩ := VaultManager.storePath_no_colon o secret hmount hbase hproj
    (by rw [hvp]; exact hsub e he)
  have hk1 : secret.key ≠ [] := by
    rw [hkey]
    exact VaultManager.generateSecretKey_ne_nil _ _
  have hk2 : ∀ c ∈ secret.key, c ≠ '}' := by
    rw [hkey]
    exact VaultManager.generateSecretKey_no_brace _ _ hdir hfile
  refine ⟨?_, rfl⟩
  rw [VaultManager.vaultReference, VaultReferenceValidator.referenceLoop_eq,
    VaultReferenceValidator.tokenOccurrences_token _ _ fuel hp1 hp2 hk1 hk2 hfuel]
  rfl

/-- C12 (amended), at the end-to-end scenario: the token of the detection of
`API_KEY=abc123` in `config/.env` decodes to the path and key of its put. -/
theorem C12_writer_validator_agree_witness :
    (VaultReferenceValidator.referenceLoop (fun _ => true)
        (VaultManager.vaultReference Sample.options Sample.apiKeySecret) 2 0).map
      (List.map (fun r => (r.path, r.key))) =
      some [(VaultManager.storePath Sample.options Sample.apiKeySecret,
        Sample.apiKeySecret.key)] ∧
    VaultManager.putSecret Sample.options (fun _ => true) Sample.apiKeySecret =
      executeVaultCommand (fun _ => true) ["kv".toList, "put".toList,
        VaultManager.storePath Sample.options Sample.apiKeySecret,
        Sample.apiKeySecret.key ++ '=' :: Sample.apiKeySecret.value] :=
  C12_writer_validator_agree Sample.options (fun _ => true) Sample.registry
    "API_KEY=abc123".toList "config/.env".toList 2 2 [Sample.apiKeySecret]
    (by decide!) (by decide) (by decide) (by decide) (by decide!) (by decide!) (by decide!)
    (by decide) Sample.apiKeySecret (List.mem_singleton.mpr rfl)

/-- C13 (code evaluated at the failing input): with the pattern `(\w*)=?(\w*)` the
first `exec` on `API_KEY=abc123` returns the match `[0, 14)` and every later one
the empty match at 14, which leaves `lastIndex` at 14: whatever the bound on the
number of `exec` calls, the loop of `detectSecretsInContent` has not ended and
the scan returns no report. -/
theorem C13_empty_match_loops_forever :
    Sample.loosePattern.exec "API_KEY=abc123".toList 0 =
        some ⟨0, 14, [some (0, 7), some (8, 14)]⟩ ∧
      Sample.loosePattern.exec "API_KEY=abc123".toList 14 =
        some ⟨14, 14, [some (14, 14), some (14, 14)]⟩ ∧
      ∀ fuel,
        VaultManager.detectSecretsInContent Sample.looseRegistry "API_KEY=abc123".toList
          "config/.env".toList fuel = .unfinished ∧
        VaultManager.scanForSecrets Sample.looseRegistry
          (Sample.fileSystem [("config/.env".toList, "API_KEY=abc123".toList)]) fuel
          ["config/.env".toList] = none := by
  have h0 : Sample.loosePattern.exec "API_KEY=abc123".toList 0 =
      some ⟨0, 14, [some (0, 7), some (8, 14)]⟩ := by decide!
  have h14 : Sample.loosePattern.exec "API_KEY=abc123".toList 14 =
      some ⟨14, 14, [some (14, 14), some (14, 14)]⟩ := by decide!
  refine ⟨h0, h14, fun fuel => ?_⟩
  have hloop : VaultManager.matchLoop "api_key".toList
      { patterns := [some Sample.loosePattern.exec], vault_path := none }
      "config/.env".toList "API_KEY=abc123".toList Sample.loosePattern.exec fuel 0 = none := by
    cases fuel with
    | zero => rfl
    | succ f =>
      simp only [VaultManager.matchLoop, h0,
        VaultManager.matchLoop_stuck _ _ _ _ _ 14 _ h14 rfl f]
      rfl
  have hdetect : VaultManager.detectSecretsInContent Sample.looseRegistry
      "API_KEY=abc123".toList "config/.env".toList fuel = .unfinished := by
    simp only [VaultManager.detectSecretsInContent, Sample.looseRegistry,
      VaultManager.detectWithPatterns, hloop]
  refine ⟨hdetect, ?_⟩
  have hread : (Sample.fileSystem [("config/.env".toList, "API_KEY=abc123".toList)]).readFile
      "config/.env".toList = some "API_KEY=abc123".toList := by decide
  simp only [VaultManager.scanForSecrets, VaultManager.scanFiles, VaultManager.scanFile,
    hread, hdetect]
